import Mathlib

/-! TinyRayCaster: a shallow embedding of `TinyRayCaster.cpp`.

Conventions of the embedding.

* `uint8_t`, `uint32_t`, `size_t` values are natural numbers; `size_t` arithmetic is reduced
  modulo `2 ^ 64`, `uint32_t` arithmetic modulo `2 ^ 32`.  `int` values are integers and the
  conversion to `int` is the two's complement narrowing `to_int`.
* `float` values are rational numbers and the float operations are exact rational operations
  (rounding is not modelled).  The library functions `cos` and `sin` are parameters.
* A function returns `none` when the C++ execution does not continue normally: a failed
  `assert`, an integer division by zero, an access outside an array, a conversion whose result
  does not fit the destination type, or (for the fuelled ray march only) exhausted fuel.
* A floating-point division by zero does not trap: it yields an IEEE infinity (see
  `column_height`).
* `std::vector` and raw arrays are lists; allocation always succeeds.
-/

namespace TinyRayCaster

/-! ## Machine arithmetic -/

/-- Conversion of an integer value to `size_t` (reduction modulo `2 ^ 64`). -/
def to_size (z : Int) : Nat := (z % 2 ^ 64).toNat

/-- Conversion of an integer value to a 32-bit `int` (two's complement narrowing). -/
def to_int (z : Int) : Int := (z + 2 ^ 31) % 2 ^ 32 - 2 ^ 31

/-- Truncation toward zero, the rounding of a float-to-integer conversion. -/
def trunc (q : ℚ) : Int := if 0 ≤ q then ⌊q⌋ else ⌈q⌉

/-- Conversion `float -> int`; undefined when the truncated value is not an `int`. -/
def float_to_int (q : ℚ) : Option Int :=
  if -(2 ^ 31) ≤ trunc q ∧ trunc q < 2 ^ 31 then some (trunc q) else none

/-- Conversion `float -> size_t`; undefined when the truncated value is not a `size_t`. -/
def float_to_size (q : ℚ) : Option Nat :=
  if 0 ≤ trunc q ∧ trunc q < 2 ^ 64 then some (trunc q).toNat else none

/-- The loop `for (size_t i = 0; i < n; i++) body(i)` over a state, stopping at a fault. -/
def forLoop {σ : Type} : Nat → (Nat → σ → Option σ) → σ → Option σ
  | 0, _, s => some s
  | n + 1, body, s => (forLoop n body s).bind (body n)

/-- The assignment `a[idx] = v` into an array; `none` when `idx` is outside it. -/
def write (a : List Nat) (idx v : Nat) : Option (List Nat) :=
  if idx < a.length then some (a.set idx v) else none

/-! ## Colours -/

/-- The function `pack_color`: the sum is computed in 32-bit arithmetic. -/
def pack_color (r g b a : Nat) : Nat :=
  ((a <<< 24) + (b <<< 16) + (g <<< 8) + r) % 2 ^ 32

/-- The function `unpack_color`: the four output bytes `(r, g, b, a)`. -/
def unpack_color (color : Nat) : Nat × Nat × Nat × Nat :=
  ((color >>> 0) &&& 255, (color >>> 8) &&& 255, (color >>> 16) &&& 255, (color >>> 24) &&& 255)

/-! ## Texture atlas -/

/-- One iteration of the loop of `texture_column`, for output row `y`. -/
def texture_column_body (img : List Nat) (texsize texid texcoord column_height img_w : Nat)
    (y : Nat) (column : List Nat) : Option (List Nat) :=
  let pix_x := (texid * texsize + texcoord) % 2 ^ 64
  let pix_y := ((y * texsize) % 2 ^ 64) / column_height
  match img[(pix_x + pix_y * img_w) % 2 ^ 64]? with
  | some v => some (column.set y v)
  | none => none

/-- The function `texture_column`. -/
def texture_column (img : List Nat) (texsize ntextures texid texcoord column_height : Nat) :
    Option (List Nat) :=
  let img_w := (texsize * ntextures) % 2 ^ 64
  let img_h := texsize
  if img.length = (img_w * img_h) % 2 ^ 64 ∧ texcoord < texsize ∧ texid < ntextures then
    forLoop column_height (texture_column_body img texsize texid texcoord column_height img_w)
      (List.replicate column_height 0)
  else none

/-- The index of `img` that `texture_column` reads for output row `y`. -/
def texture_column_index (texsize ntextures texid texcoord column_height y : Nat) : Nat :=
  ((texid * texsize + texcoord) % 2 ^ 64
    + ((y * texsize) % 2 ^ 64) / column_height * ((texsize * ntextures) % 2 ^ 64)) % 2 ^ 64

/-! ## Texture coordinate of a hit -/

/-- The texture coordinate of a hit at `(cx, cy)`: the value of `x_texcoord` in `main` after
its assertion `x_texcoord >= 0 && x_texcoord < (int)walltext_size`. -/
def x_texcoord (cx cy : ℚ) (walltext_size : Nat) : Option Int :=
  let hitx : ℚ := cx - ⌊cx + 1 / 2⌋
  let hity : ℚ := cy - ⌊cy + 1 / 2⌋
  (float_to_int (hitx * walltext_size)).bind fun x0 =>
  (if |hity| > |hitx| then float_to_int (hity * walltext_size) else some x0).bind fun x1 =>
  let x2 := if x1 < 0 then to_int ((to_size x1 + walltext_size) % 2 ^ 64 : Nat) else x1
  if 0 ≤ x2 ∧ x2 < to_int walltext_size then some x2 else none

/-! ## Loading the atlas -/

/-- The result of a successful `stbi_load`: width, height, channel count (all `int`) and the
decoded bytes. -/
structure Image where
  w : Int
  h : Int
  nchannels : Int
  pixmap : List Nat
deriving DecidableEq, Repr

/-- The three reference parameters of `load_texture`. -/
structure Atlas where
  texture : List Nat
  text_size : Nat
  text_cnt : Nat
deriving DecidableEq, Repr

/-- What a call of `load_texture` that returns leaves behind: the returned `bool`, the
reference parameters, and the lines written to `std::cerr`. -/
structure LoadResult where
  ret : Bool
  out : Atlas
  err : List String
deriving DecidableEq, Repr

/-- The value of an `int` expression; signed overflow is undefined. -/
def int_val (z : Int) : Option Int :=
  if -(2 ^ 31) ≤ z ∧ z < 2 ^ 31 then some z else none

/-- The read `a[idx]` with an `int` index; `none` outside the array. -/
def read_at (a : List Nat) (idx : Int) : Option Nat :=
  if 0 ≤ idx then a[idx.toNat]? else none

/-- The body of the inner loop of `load_texture`, for row `j` and column `i`. -/
def load_texture_body (w : Int) (pixmap : List Nat) (j i : Nat) (texture : List Nat) :
    Option (List Nat) :=
  (int_val ((i + j * w) * 4 + 0)).bind fun k0 =>
  (read_at pixmap k0).bind fun r =>
  (int_val ((i + j * w) * 4 + 1)).bind fun k1 =>
  (read_at pixmap k1).bind fun g =>
  (int_val ((i + j * w) * 4 + 2)).bind fun k2 =>
  (read_at pixmap k2).bind fun b =>
  (int_val ((i + j * w) * 4 + 3)).bind fun k3 =>
  (read_at pixmap k3).bind fun a =>
  (int_val (i + j * w)).bind fun k =>
  write texture (to_size k) (pack_color r g b a)

/-- The function `load_texture`, applied to the outcome of `stbi_load` (`none` when the file
cannot be decoded) and to the current values of its reference parameters. -/
def load_texture (decoded : Option Image) (out : Atlas) : Option LoadResult :=
  match decoded with
  | none => some ⟨false, out, ["Error: can not load the textures"]⟩
  | some img =>
    if img.nchannels ≠ 4 then
      some ⟨false, out, ["Error: the texture must be a 32 bit image"]⟩
    else if img.h = 0 then none
    else
      (int_val (Int.tdiv img.w img.h)).bind fun q =>
      let text_cnt := to_size q
      if text_cnt = 0 then none
      else
        let text_size := to_size img.w / text_cnt
        (int_val (img.h * to_int text_cnt)).bind fun p =>
        if img.w ≠ p then
          some ⟨false, ⟨out.texture, text_size, text_cnt⟩,
            ["Error: the texture file must contain N square textures packed horizontally"]⟩
        else
          (int_val (img.w * img.h)).bind fun n =>
          (forLoop img.h.toNat
            (fun j texture =>
              forLoop img.w.toNat (load_texture_body img.w img.pixmap j) texture)
            (List.replicate (to_size n) 0)).bind fun texture =>
          some ⟨true, ⟨texture, text_size, text_cnt⟩, []⟩

/-- Invariant of the loops of `load_texture`: entries below `m` are packed pixels. -/
def packed_upto (pixmap texture : List Nat) (L m : Nat) : Prop :=
  texture.length = L ∧ ∀ k, k < m → ∃ r g b a,
    pixmap[k * 4]? = some r ∧ pixmap[k * 4 + 1]? = some g ∧
    pixmap[k * 4 + 2]? = some b ∧ pixmap[k * 4 + 3]? = some a ∧
    texture[k]? = some (pack_color r g b a)

/-! ## Frame buffer -/

/-- The three assignments `pixels[p * 3 + 0] = r; pixels[p * 3 + 1] = g;
pixels[p * 3 + 2] = b`, where `p` is the `size_t` value of the parenthesised pixel number. -/
def put_pixel (pixels : List Nat) (p r g b : Nat) : Option (List Nat) :=
  (write pixels ((p * 3 + 0) % 2 ^ 64) r).bind fun px =>
  (write px ((p * 3 + 1) % 2 ^ 64) g).bind fun px =>
  write px ((p * 3 + 2) % 2 ^ 64) b

/-- The body of the inner loop of `draw_rectangle`, for offsets `i` and `j`. -/
def draw_rectangle_body (img_w img_h x y r g b i j : Nat) (pixels : List Nat) :
    Option (List Nat) :=
  let cx := (x + i) % 2 ^ 64
  let cy := (y + j) % 2 ^ 64
  if cx ≥ img_w ∨ cy ≥ img_h then some pixels
  else put_pixel pixels ((cx + cy * img_w) % 2 ^ 64) r g b

/-- The function `draw_rectangle`. -/
def draw_rectangle (pixels : List Nat) (img_w img_h x y w h color : Nat) : Option (List Nat) :=
  match unpack_color color with
  | (r, g, b, _) =>
    forLoop w (fun i px => forLoop h (draw_rectangle_body img_w img_h x y r g b i) px) pixels

/-- Channel `k` of an RGB triple: the byte stored at offset `k` of a pixel. -/
def rgb_channel (r g b k : Nat) : Nat :=
  if k = 0 then r else if k = 1 then g else b

/-- Pixel number `m` lies in the part of the rectangle that `draw_rectangle` has visited when
its loops stand at column offset `i` and row offset `j`. -/
def rect_visited (img_w img_h x y h i j m : Nat) : Prop :=
  m < img_w * img_h ∧
    ((x ≤ m % img_w ∧ m % img_w < x + i ∧ y ≤ m / img_w ∧ m / img_w < y + h) ∨
     (m % img_w = x + i ∧ y ≤ m / img_w ∧ m / img_w < y + j))

/-- Invariant of the loops of `draw_rectangle`: visited pixels hold the colour, the others
what `pixels` held. -/
def rect_inv (pixels : List Nat) (img_w img_h x y h r g b i j : Nat) (px : List Nat) : Prop :=
  px.length = pixels.length ∧ ∀ m k, k < 3 →
    (rect_visited img_w img_h x y h i j m → px[m * 3 + k]? = some (rgb_channel r g b k)) ∧
    (¬ rect_visited img_w img_h x y h i j m → px[m * 3 + k]? = pixels[m * 3 + k]?)

/-! ## The frame of `main` -/

/-- Image width `win_w`. -/
def win_w : Nat := 1024

/-- Image height `win_h`. -/
def win_h : Nat := 512

/-- Map width `map_w`. -/
def map_w : Nat := 16

/-- Map height `map_h`. -/
def map_h : Nat := 16

/-- The array `map` of `main`: 16 rows of 16 characters and the terminating null character. -/
def map : List Char :=
  ("0000222222220000" ++
   "1              0" ++
   "1      11111   0" ++
   "1     0        0" ++
   "0     0  1110000" ++
   "0     3        0" ++
   "0   10000      0" ++
   "0   3   11100  0" ++
   "5   4   0      0" ++
   "5   4   1  00000" ++
   "0       1      0" ++
   "2       1      0" ++
   "0       0      0" ++
   "0 0000000      0" ++
   "0              0" ++
   "0002222222200000").toList ++ [Char.ofNat 0]

/-- Width of a minimap rectangle, `rect_w = win_w / (map_w * 2)`. -/
def rect_w : Nat := win_w / (map_w * 2)

/-- Height of a minimap rectangle, `rect_h = win_h / map_h`. -/
def rect_h : Nat := win_h / map_h

/-- The texture id of a map character, `size_t texid = c - '0'`. -/
def texid_of (c : Char) : Nat := to_size ((c.toNat : Int) - ('0').toNat)

/-- The body of the inner loop of the minimap pass, for the cell in column `i` of row `j`.
The map is a parameter; `main` passes its array `map`. -/
def draw_map_cell (mp : List Char) (walltext : List Nat) (walltext_size walltext_cnt : Nat)
    (j i : Nat) (pixels : List Nat) : Option (List Nat) :=
  match mp[(i + j * map_w) % 2 ^ 64]? with
  | none => none
  | some c =>
    if c = ' ' then some pixels
    else
      let rect_x := (i * rect_w) % 2 ^ 64
      let rect_y := (j * rect_h) % 2 ^ 64
      let texid := texid_of c
      if texid < walltext_cnt then
        match walltext[(texid * walltext_size) % 2 ^ 64]? with
        | none => none
        | some color => draw_rectangle pixels win_w win_h rect_x rect_y rect_w rect_h color
      else none

/-- The minimap pass of `main`: the loops over the rows `j` and the columns `i` of the map. -/
def draw_map (mp : List Char) (walltext : List Nat) (walltext_size walltext_cnt : Nat)
    (pixels : List Nat) : Option (List Nat) :=
  forLoop map_h
    (fun j px => forLoop map_w (draw_map_cell mp walltext walltext_size walltext_cnt j) px)
    pixels

/-- The colour the minimap pass uses for the cell in column `ci` of row `cj`: the upper left
pixel of the texture of a wall, nothing for an empty cell. -/
def cell_colour (mp : List Char) (walltext : List Nat) (walltext_size ci cj : Nat) :
    Option Nat :=
  match mp[ci + cj * 16]? with
  | none => none
  | some c => if c = ' ' then none else walltext[texid_of c * walltext_size]?

/-- The colour that the cells before column `i` of row `j` have given to pixel number `m`. -/
def map_painted (mp : List Char) (walltext : List Nat) (walltext_size j i m : Nat) :
    Option Nat :=
  if m < 1024 * 512 ∧ m % 1024 < 512 ∧
      (m / 1024 / 32 < j ∨ (m / 1024 / 32 = j ∧ m % 1024 / 32 < i)) then
    cell_colour mp walltext walltext_size (m % 1024 / 32) (m / 1024 / 32)
  else none

/-- Invariant of the loops of the minimap pass. -/
def map_inv (mp : List Char) (walltext : List Nat) (walltext_size : Nat) (pixels : List Nat)
    (j i : Nat) (px : List Nat) : Prop :=
  px.length = pixels.length ∧ ∀ m k, k < 3 →
    px[m * 3 + k]? =
      match map_painted mp walltext walltext_size j i m with
      | some color => some (rgb_channel (unpack_color color).1 (unpack_color color).2.1
          (unpack_color color).2.2.1 k)
      | none => pixels[m * 3 + k]?

/-- The constant `fov`: the `float` nearest to `M_PI / 3`. -/
def fov : ℚ := 8784530 / 8388608

/-- The computation `size_t column_height = win_h / (t * cos(angle - player_a))`, where `cd`
is the value of `cos(angle - player_a)`.  The division is a `double` division.  For a divisor
`+0` (a product of two non-negative factors, one of them zero) it yields `+infinity` without a
trap, and the conversion of `+infinity` to `size_t` in the compiled program (x86-64) gives 0,
so the program goes on with a column of height 0.  For a divisor `-0` the quotient is
`-infinity`, which has no `size_t` value. -/
def column_height (t cd : ℚ) : Option Nat :=
  if t * cd = 0 then (if 0 ≤ t ∧ 0 ≤ cd then some 0 else none)
  else float_to_size ((win_h : ℚ) / (t * cd))

/-- The body of the blit loop of `main`, for texture row `j` of screen column `i`. -/
def blit_body (column : List Nat) (column_height i j : Nat) (pixels : List Nat) :
    Option (List Nat) :=
  let pix_x := to_int ((win_w / 2 + i) % 2 ^ 64 : Nat)
  let pix_y := to_int (to_size (((j + win_h / 2 : Nat) : Int) - (column_height / 2 : Nat)))
  if pix_y < 0 ∨ pix_y ≥ to_int win_h then some pixels
  else
    match column[j]? with
    | none => none
    | some color =>
      match unpack_color color with
      | (r, g, b, _) =>
        put_pixel pixels ((to_size pix_x + to_size pix_y * win_w) % 2 ^ 64) r g b

/-- The branch of `main` taken when the ray touches a wall with map character `c` at distance
`t` and point `(cx, cy)`: the column of screen position `i` is computed and drawn. -/
def draw_column (walltext : List Nat) (walltext_size walltext_cnt : Nat) (c : Char)
    (t cd cx cy : ℚ) (i : Nat) (pixels : List Nat) : Option (List Nat) :=
  let texid := texid_of c
  if texid < walltext_cnt then
    (column_height t cd).bind fun ch =>
    (x_texcoord cx cy walltext_size).bind fun u =>
    (texture_column walltext walltext_size walltext_cnt texid (to_size u) ch).bind
      fun column => forLoop ch (blit_body column ch i) pixels
  else none

/-- The hit at which the ray march is left by `break`: the travelled distance, the hit point
and the texture id. -/
structure Hit where
  t : ℚ
  cx : ℚ
  cy : ℚ
  texid : Nat
deriving DecidableEq, Repr

/-- The loop `for (float t = 0; t < 20; t += .01)` of `main` for screen column `i`, started at
distance `t`, with at most `fuel` iterations.  The result is the frame buffer and the hit, if
the loop was left by `break`.  The map and the functions `cos` and `sin` are parameters. -/
def march (cos sin : ℚ → ℚ) (mp : List Char) (walltext : List Nat)
    (walltext_size walltext_cnt : Nat) (player_x player_y player_a angle : ℚ) (i : Nat) :
    Nat → ℚ → List Nat → Option (List Nat × Option Hit)
  | 0, _, _ => none
  | fuel + 1, t, pixels =>
    if t < 20 then
      let cx := player_x + t * cos angle
      let cy := player_y + t * sin angle
      (float_to_int (cx * rect_w)).bind fun pix_x =>
      (float_to_int (cy * rect_h)).bind fun pix_y =>
      (put_pixel pixels ((to_size pix_x + to_size pix_y * win_w) % 2 ^ 64) 160 160 160).bind
        fun px =>
      (float_to_int cx).bind fun icx =>
      (float_to_int cy).bind fun icy =>
      match mp[(to_size icx + to_size icy * map_w) % 2 ^ 64]? with
      | none => none
      | some c =>
        if c ≠ ' ' then
          (draw_column walltext walltext_size walltext_cnt c t (cos (angle - player_a))
            cx cy i px).bind fun res => some (res, some ⟨t, cx, cy, texid_of c⟩)
        else
          march cos sin mp walltext walltext_size walltext_cnt player_x player_y player_a
            angle i fuel (t + 1 / 100) px
    else some (pixels, none)

/-- The angle of the ray of screen column `i`,
`angle = player_a - fov / 2 + fov * i / float(win_w / 2)`. -/
def ray_angle (player_a : ℚ) (i : Nat) : ℚ :=
  player_a - fov / 2 + fov * i / ((win_w / 2 : Nat) : ℚ)

/-- One iteration of the loop over the screen columns of `main`: the ray of column `i` is
cast from the camera `(player_x, player_y, player_a)`.  Fuel 2001 is enough for the 2000
iterations that `t < 20` allows. -/
def cast_ray (cos sin : ℚ → ℚ) (mp : List Char) (walltext : List Nat)
    (walltext_size walltext_cnt : Nat) (player_x player_y player_a : ℚ) (i : Nat)
    (pixels : List Nat) : Option (List Nat × Option Hit) :=
  let angle := ray_angle player_a i
  march cos sin mp walltext walltext_size walltext_cnt player_x player_y player_a angle i
    2001 0 pixels

/-- The point sampled by the march at distance `t` lies inside the 16x16 map, in an empty
cell. -/
def sample_empty (cos sin : ℚ → ℚ) (mp : List Char) (player_x player_y angle t : ℚ) : Prop :=
  0 ≤ player_x + t * cos angle ∧ player_x + t * cos angle < 16 ∧
  0 ≤ player_y + t * sin angle ∧ player_y + t * sin angle < 16 ∧
  mp[⌊player_x + t * cos angle⌋.toNat + ⌊player_y + t * sin angle⌋.toNat * 16]? = some ' '

/-- The target row of the blit for texture row `j` of a column of height `column_height`:
`pix_y = j + win_h / 2 - column_height / 2`, evaluated in `size_t` and narrowed to `int`. -/
def blit_row (column_height j : Nat) : Int :=
  to_int (to_size (((j + win_h / 2 : Nat) : Int) - (column_height / 2 : Nat)))

/-- The point sampled by the march at distance `t` lies inside the 16x16 map, in a cell whose
map character is `c`. -/
def sample_cell (cos sin : ℚ → ℚ) (mp : List Char) (player_x player_y angle t : ℚ)
    (c : Char) : Prop :=
  0 ≤ player_x + t * cos angle ∧ player_x + t * cos angle < 16 ∧
  0 ≤ player_y + t * sin angle ∧ player_y + t * sin angle < 16 ∧
  mp[⌊player_x + t * cos angle⌋.toNat + ⌊player_y + t * sin angle⌋.toNat * 16]? = some c

/-- The `float` nearest to the increment `.01` of the march: the value of `t` after the first
`t += .01` when the addition is rounded to `float`.  It lies slightly below `1/100`. -/
def float_step : ℚ := 5368709 / 536870912

/-- The array accesses of the march iteration at distance `t` are in bounds: the conversions
`int(cx)`, `int(cy)`, `int pix_x = cx * rect_w`, `int pix_y = cy * rect_h` are defined and not
negative, the map index `int(cx) + int(cy) * map_w` is below 256, and the cone pixel
`(pix_x, pix_y)` lies in the left 512x512 half of the frame. -/
def lookups_in_bounds (cos sin : ℚ → ℚ) (player_x player_y angle t : ℚ) : Prop :=
  ∃ icx icy pix_x pix_y : Nat,
    float_to_int (player_x + t * cos angle) = some (icx : Int) ∧
    float_to_int (player_y + t * sin angle) = some (icy : Int) ∧
    (to_size icx + to_size icy * map_w) % 2 ^ 64 < 256 ∧
    float_to_int ((player_x + t * cos angle) * rect_w) = some (pix_x : Int) ∧
    float_to_int ((player_y + t * sin angle) * rect_h) = some (pix_y : Int) ∧
    pix_x < 512 ∧ pix_y < 512

/-! ## Theorems -/

theorem and_255 (x : Nat) : x &&& 255 = x % 256 := by
  have := Nat.and_pow_two_sub_one_eq_mod x 8
  simpa using this

theorem forLoop_inv {σ : Type} (n : Nat) (body : Nat → σ → Option σ) (s : σ)
    (P : Nat → σ → Prop) (h0 : P 0 s)
    (hstep : ∀ i t, i < n → P i t → ∃ t', body i t = some t' ∧ P (i + 1) t') :
    ∃ t, forLoop n body s = some t ∧ P n t := by
  induction n with
  | zero => exact ⟨s, rfl, h0⟩
  | succ k ih =>
    obtain ⟨t, ht, hP⟩ := ih (fun i t hi hp => hstep i t (Nat.lt_succ_of_lt hi) hp)
    obtain ⟨t', ht', hP'⟩ := hstep k t (Nat.lt_succ_self k) hP
    exact ⟨t', by simp [forLoop, ht, ht'], hP'⟩

theorem texture_column_index_lt (S N texid u h y : Nat) (hlen : N * S * S < 2 ^ 64)
    (hid : texid < N) (hu : u < S) (hy : y < h) :
    texture_column_index S N texid u h y < N * S * S ∧
    texture_column_index S N texid u h y
      = (texid * S + u) + ((y * S) % 2 ^ 64) / h * (N * S) := by
  have hS : 1 ≤ S := by omega
  have hNS : N * S ≤ N * S * S := Nat.le_mul_of_pos_right _ hS
  have h1 : texid * S + u < N * S := by
    calc texid * S + u < texid * S + S := by omega
      _ = (texid + 1) * S := by ring
      _ ≤ N * S := Nat.mul_le_mul_right _ hid
  have h2 : ((y * S) % 2 ^ 64) / h < S := by
    apply Nat.div_lt_of_lt_mul
    calc (y * S) % 2 ^ 64 ≤ y * S := Nat.mod_le _ _
      _ < h * S := Nat.mul_lt_mul_of_pos_right hy hS
  have h3 : ((y * S) % 2 ^ 64) / h * (N * S) ≤ (S - 1) * (N * S) :=
    Nat.mul_le_mul_right _ (by omega)
  have h4 : (S - 1) * (N * S) + N * S = N * S * S := by
    obtain ⟨k, rfl⟩ : ∃ k, S = k + 1 := ⟨S - 1, by omega⟩
    simp only [Nat.add_sub_cancel]; ring
  have h5 : (texid * S + u) + ((y * S) % 2 ^ 64) / h * (N * S) < N * S * S := by omega
  unfold texture_column_index
  rw [Nat.mul_comm S N, Nat.mod_eq_of_lt (a := N * S) (by omega),
    Nat.mod_eq_of_lt (a := texid * S + u) (by omega),
    Nat.mod_eq_of_lt (Nat.lt_trans h5 hlen)]
  exact ⟨h5, rfl⟩

/-- What `texture_column` computes on a valid atlas: a column of `h` entries whose row `r` is
the atlas entry at `texture_column_index`. -/
theorem texture_column_spec (img : List Nat) (S N texid u h : Nat)
    (hlen : img.length = N * S * S) (hbig : img.length < 2 ^ 64)
    (hid : texid < N) (hu : u < S) :
    ∃ col, texture_column img S N texid u h = some col ∧ col.length = h ∧
      ∀ r, r < h → col[r]? = img[texture_column_index S N texid u h r]? := by
  have hassert : img.length = (S * N % 2 ^ 64 * S) % 2 ^ 64 := by
    rw [Nat.mul_comm S N, Nat.mod_eq_of_lt (a := N * S), Nat.mod_eq_of_lt] <;> try omega
    have : N * S ≤ N * S * S := Nat.le_mul_of_pos_right _ (by omega)
    omega
  unfold texture_column
  simp only [hassert.symm, hu, hid, and_self, if_true]
  obtain ⟨col, hcol, hlen', hP⟩ := forLoop_inv h
    (texture_column_body img S texid u h (S * N % 2 ^ 64)) (List.replicate h 0)
    (fun i col => col.length = h ∧
      ∀ r, r < i → col[r]? = img[texture_column_index S N texid u h r]?)
    ⟨by simp, fun r hr => absurd hr (Nat.not_lt_zero r)⟩
    (fun i col hi ⟨hl, hp⟩ => by
      have hidx := (texture_column_index_lt S N texid u h i (by omega) hid hu hi).1
      rw [← hlen] at hidx
      have hget : img[texture_column_index S N texid u h i]?
          = some (img[texture_column_index S N texid u h i]) := List.getElem?_eq_getElem hidx
      unfold texture_column_index at hget hidx
      refine ⟨col.set i (img.get ⟨_, hidx⟩), ?_, by simpa using hl, ?_⟩
      · simp only [texture_column_body, hget]; rfl
      · intro r hr
        rcases Nat.lt_succ_iff_lt_or_eq.mp hr with hlt | rfl
        · rw [List.getElem?_set_ne (by omega)]; exact hp r hlt
        · unfold texture_column_index
          rw [hget, List.getElem?_set_self (by omega)]; rfl)
  exact ⟨col, hcol, hlen', hP⟩

/-- C1: for bytes `r g b a`, `unpack_color (pack_color r g b a)` is `(r, g, b, a)`, and the
packed 32-bit word is `r + 2^8 * g + 2^16 * b + 2^24 * a`. -/
theorem unpack_pack_color (r g b a : Nat)
    (hr : r < 256) (hg : g < 256) (hb : b < 256) (ha : a < 256) :
    unpack_color (pack_color r g b a) = (r, g, b, a)
    ∧ pack_color r g b a = r + 2 ^ 8 * g + 2 ^ 16 * b + 2 ^ 24 * a := by
  simp only [unpack_color, pack_color, and_255, Nat.shiftLeft_eq, Nat.shiftRight_eq_div_pow]
  refine ⟨?_, by omega⟩
  simp only [Prod.mk.injEq]
  refine ⟨by omega, by omega, by omega, by omega⟩

theorem unpack_pack_color_witness :
    unpack_color (pack_color 17 0 255 128) = (17, 0, 255, 128)
    ∧ pack_color 17 0 255 128 = 17 + 2 ^ 8 * 0 + 2 ^ 16 * 255 + 2 ^ 24 * 128 :=
  unpack_pack_color 17 0 255 128 (by decide) (by decide) (by decide) (by decide)

/-- C2: on a valid atlas of size `(N*S)*S`, for `texid < N`, `u < S`, `h >= 1` and every output
row `r < h`, `texture_column` returns a column whose row `r` is the atlas pixel at column
`texid * S + u` and source row `floor(r * S / h)`, an index inside the atlas.  The product
`r * S` is a `size_t`, as it is for every column the program can build: the side `S` is below
`2^31` (`load_texture_size_lt`), the heights of `main` are at most `102400`
(`column_height_le`), and then the product fits (`texture_column_rows_fit`). -/
theorem texture_column_row (img : List Nat) (S N texid u h r : Nat)
    (hlen : img.length = N * S * S) (hbig : img.length < 2 ^ 64)
    (hid : texid < N) (hu : u < S) (_hh : 1 ≤ h) (hr : r < h) (hfit : r * S < 2 ^ 64) :
    ∃ col, texture_column img S N texid u h = some col ∧
      col[r]? = img[(texid * S + u) + (r * S / h) * (N * S)]? ∧
      (texid * S + u) + (r * S / h) * (N * S) < img.length := by
  obtain ⟨col, hcol, -, hrow⟩ := texture_column_spec img S N texid u h hlen hbig hid hu
  obtain ⟨hlt, heq⟩ := texture_column_index_lt S N texid u h r (hlen ▸ hbig) hid hu hr
  rw [Nat.mod_eq_of_lt hfit] at heq
  refine ⟨col, hcol, ?_, ?_⟩
  · rw [hrow r hr, heq]
  · rw [← heq, hlen]; exact hlt

theorem texture_column_row_witness :
    ∃ col, texture_column [10, 11, 12, 13, 20, 21, 22, 23] 2 2 1 0 5 = some col ∧
      col[3]? = [10, 11, 12, 13, 20, 21, 22, 23][(1 * 2 + 0) + (3 * 2 / 5) * (2 * 2)]? ∧
      (1 * 2 + 0) + (3 * 2 / 5) * (2 * 2) < [10, 11, 12, 13, 20, 21, 22, 23].length :=
  texture_column_row [10, 11, 12, 13, 20, 21, 22, 23] 2 2 1 0 5 3
    (by decide) (by decide) (by decide) (by decide) (by decide) (by decide) (by decide)

/-- C3: on a valid atlas (`img.size() = N*S*S`, `texid < N`, `u < S`) and for every
`column_height h >= 1`, `texture_column` returns a sequence of exactly `h` entries. -/
theorem texture_column_length (img : List Nat) (S N texid u h : Nat)
    (hlen : img.length = N * S * S) (hbig : img.length < 2 ^ 64)
    (hid : texid < N) (hu : u < S) (_hh : 1 ≤ h) :
    ∃ col, texture_column img S N texid u h = some col ∧ col.length = h := by
  obtain ⟨col, hcol, hl, -⟩ := texture_column_spec img S N texid u h hlen hbig hid hu
  exact ⟨col, hcol, hl⟩

theorem texture_column_length_witness :
    ∃ col, texture_column [10, 11, 12, 13, 20, 21, 22, 23] 2 2 1 0 5 = some col ∧
      col.length = 5 :=
  texture_column_length [10, 11, 12, 13, 20, 21, 22, 23] 2 2 1 0 5
    (by decide) (by decide) (by decide) (by decide) (by decide)

theorem trunc_scaled_bounds (v : ℚ) (S : Nat) (h1 : -(1 / 2) ≤ v) (h2 : v < 1 / 2) :
    -(S : Int) ≤ 2 * trunc (v * S) ∧ 2 * trunc (v * S) ≤ S := by
  have hS : (0 : ℚ) ≤ S := Nat.cast_nonneg S
  have hlo : -((S : ℚ) / 2) ≤ v * S := by nlinarith
  have hhi : v * S ≤ (S : ℚ) / 2 := by nlinarith
  unfold trunc
  split_ifs with h0
  · have hf0 : (0 : Int) ≤ ⌊v * S⌋ := Int.floor_nonneg.mpr h0
    have hf1 : ((⌊v * S⌋ : Int) : ℚ) ≤ v * S := Int.floor_le _
    have : ((2 * ⌊v * S⌋ : Int) : ℚ) ≤ ((S : Int) : ℚ) := by push_cast; linarith
    have := Int.cast_le.mp this
    constructor <;> omega
  · have hc0 : ⌈v * S⌉ ≤ (0 : Int) := Int.ceil_le.mpr (by push_cast; linarith)
    have hc1 : v * S ≤ ((⌈v * S⌉ : Int) : ℚ) := Int.le_ceil _
    have : ((-(S : Int) : Int) : ℚ) ≤ ((2 * ⌈v * S⌉ : Int) : ℚ) := by push_cast; linarith
    have := Int.cast_le.mp this
    constructor <;> omega

theorem hit_offset_bounds (c : ℚ) : -(1 / 2) ≤ c - ⌊c + 1 / 2⌋ ∧ c - ⌊c + 1 / 2⌋ < 1 / 2 := by
  have h1 := Int.floor_le (c + 1 / 2)
  have h2 := Int.lt_floor_add_one (c + 1 / 2)
  constructor <;> linarith

theorem float_to_int_scaled (v : ℚ) (S : Nat) (h1 : -(1 / 2) ≤ v) (h2 : v < 1 / 2)
    (hS : S < 2 ^ 31) :
    float_to_int (v * S) = some (trunc (v * S)) := by
  obtain ⟨a, b⟩ := trunc_scaled_bounds v S h1 h2
  unfold float_to_int
  rw [if_pos]
  constructor <;> omega

/-- The texture coordinate passes its assertion and lies in `[0, S)` for every hit point and
every texture side `1 <= S < 2^31`. -/
theorem x_texcoord_in_range (cx cy : ℚ) (S : Nat) (hS : 1 ≤ S) (hS31 : S < 2 ^ 31) :
    ∃ x, x_texcoord cx cy S = some x ∧ 0 ≤ x ∧ x < (S : Int) := by
  obtain ⟨ax, bx⟩ := hit_offset_bounds cx
  obtain ⟨ay, by'⟩ := hit_offset_bounds cy
  have key : ∀ v : ℚ, -(1 / 2) ≤ v → v < 1 / 2 →
      ∃ x, (let x1 := trunc (v * S)
            let x2 := if x1 < 0 then to_int ((to_size x1 + S) % 2 ^ 64 : Nat) else x1
            if 0 ≤ x2 ∧ x2 < to_int S then some x2 else none) = some x
        ∧ 0 ≤ x ∧ x < (S : Int) := by
    intro v h1 h2
    obtain ⟨a, b⟩ := trunc_scaled_bounds v S h1 h2
    have hti : to_int S = S := by unfold to_int; omega
    simp only [hti]
    by_cases hneg : trunc (v * S) < 0
    · have e : to_int ((to_size (trunc (v * S)) + S) % 2 ^ 64 : Nat) = trunc (v * S) + S := by
        unfold to_int to_size; omega
      simp only [hneg, if_true, e]
      refine ⟨trunc (v * S) + S, ?_, by omega, by omega⟩
      rw [if_pos]; constructor <;> omega
    · simp only [hneg, if_false]
      refine ⟨trunc (v * S), ?_, by omega, by omega⟩
      rw [if_pos]; constructor <;> omega
  unfold x_texcoord
  simp only [float_to_int_scaled _ S ax bx hS31, Option.some_bind]
  by_cases hsel : |cy - ⌊cy + 1 / 2⌋| > |cx - ⌊cx + 1 / 2⌋|
  · simp only [hsel, if_true, float_to_int_scaled _ S ay by' hS31, Option.some_bind]
    exact key _ ay by'
  · simp only [hsel, if_false, Option.some_bind]
    exact key _ ax bx

/-- C4: for every hit point `(cx, cy)` and every texture side `S >= 1` (an `int`-sized side,
as `load_texture` produces), the u-coordinate computed from `hitx = cx - floor(cx + 1/2)` and
`hity = cy - floor(cy + 1/2)` passes the assertion and lies in `[0, S)`. -/
theorem x_texcoord_range (cx cy : ℚ) (S : Nat) (hS : 1 ≤ S) (hS31 : S < 2 ^ 31) :
    ∃ x, x_texcoord cx cy S = some x ∧ 0 ≤ x ∧ x < (S : Int) := by
  obtain ⟨x, hx, hlo, hhi⟩ := x_texcoord_in_range cx cy S hS hS31
  exact ⟨x, hx, hlo, hhi⟩

theorem x_texcoord_range_witness :
    ∃ x, x_texcoord (7 / 4) (349 / 100) 64 = some x ∧ 0 ≤ x ∧ x < ((64 : Nat) : Int) :=
  x_texcoord_range (7 / 4) (349 / 100) 64 (by decide) (by decide)

theorem forLoop_post {σ : Type} (n : Nat) (body : Nat → σ → Option σ) (s t : σ)
    (P : Nat → σ → Prop) (h : forLoop n body s = some t) (h0 : P 0 s)
    (hstep : ∀ i a b, i < n → P i a → body i a = some b → P (i + 1) b) : P n t := by
  induction n generalizing t with
  | zero =>
    simp only [forLoop, Option.some.injEq] at h
    exact h ▸ h0
  | succ k ih =>
    simp only [forLoop] at h
    obtain ⟨a, ha, hb⟩ := Option.bind_eq_some.mp h
    exact hstep k a t (Nat.lt_succ_self k)
      (ih a ha (fun i a b hi => hstep i a b (Nat.lt_succ_of_lt hi))) hb

theorem int_val_eq_some {z v : Int} (h : int_val z = some v) :
    v = z ∧ -(2 ^ 31) ≤ z ∧ z < 2 ^ 31 := by
  unfold int_val at h
  split_ifs at h with hc
  exact ⟨(Option.some.inj h).symm, hc⟩

theorem read_at_eq_some {a : List Nat} {k : Nat} {v : Nat} (h : read_at a (k : Int) = some v) :
    a[k]? = some v := by
  unfold read_at at h
  simpa using h

theorem load_texture_body_post (w : Nat) (pixmap : List Nat) (j i L : Nat) (t t' : List Nat)
    (hP : packed_upto pixmap t L (i + j * w))
    (hb : load_texture_body (w : Int) pixmap j i t = some t') :
    packed_upto pixmap t' L (i + 1 + j * w) := by
  unfold load_texture_body at hb
  obtain ⟨k0, hk0, hb⟩ := Option.bind_eq_some.mp hb
  obtain ⟨r, hr, hb⟩ := Option.bind_eq_some.mp hb
  obtain ⟨k1, hk1, hb⟩ := Option.bind_eq_some.mp hb
  obtain ⟨g, hg, hb⟩ := Option.bind_eq_some.mp hb
  obtain ⟨k2, hk2, hb⟩ := Option.bind_eq_some.mp hb
  obtain ⟨b, hb', hb⟩ := Option.bind_eq_some.mp hb
  obtain ⟨k3, hk3, hb⟩ := Option.bind_eq_some.mp hb
  obtain ⟨a, ha, hb⟩ := Option.bind_eq_some.mp hb
  obtain ⟨k, hk, hb⟩ := Option.bind_eq_some.mp hb
  obtain ⟨rfl, -, -⟩ := int_val_eq_some hk0
  obtain ⟨rfl, -, -⟩ := int_val_eq_some hk1
  obtain ⟨rfl, -, -⟩ := int_val_eq_some hk2
  obtain ⟨rfl, -, -⟩ := int_val_eq_some hk3
  obtain ⟨rfl, -, hklt⟩ := int_val_eq_some hk
  have c0 : (((i : Int) + j * w) * 4 + 0) = (((i + j * w) * 4 : Nat) : Int) := by push_cast; ring
  have c1 : (((i : Int) + j * w) * 4 + 1) = (((i + j * w) * 4 + 1 : Nat) : Int) := by
    push_cast; ring
  have c2 : (((i : Int) + j * w) * 4 + 2) = (((i + j * w) * 4 + 2 : Nat) : Int) := by
    push_cast; ring
  have c3 : (((i : Int) + j * w) * 4 + 3) = (((i + j * w) * 4 + 3 : Nat) : Int) := by
    push_cast; ring
  rw [c0] at hr; rw [c1] at hg; rw [c2] at hb'; rw [c3] at ha
  have hr := read_at_eq_some hr
  have hg := read_at_eq_some hg
  have hb' := read_at_eq_some hb'
  have ha := read_at_eq_some ha
  have hsz : to_size ((i : Int) + j * w) = i + j * w := by
    have : ((i : Int) + j * w) = ((i + j * w : Nat) : Int) := by push_cast; ring
    rw [this] at hklt ⊢
    unfold to_size; omega
  rw [hsz] at hb
  unfold write at hb
  split_ifs at hb with hin
  cases hb
  obtain ⟨hl, hall⟩ := hP
  refine ⟨by simpa using hl, ?_⟩
  intro k hk
  by_cases hkeq : k = i + j * w
  · subst hkeq
    exact ⟨r, g, b, a, hr, hg, hb', ha, by rw [List.getElem?_set_self hin]⟩
  · obtain ⟨r', g', b', a', h0, h1, h2, h3, h4⟩ := hall k (by omega)
    exact ⟨r', g', b', a', h0, h1, h2, h3, by
      rw [List.getElem?_set_ne (fun h => hkeq h.symm)]; exact h4⟩

theorem to_size_natCast (n : Nat) (h : n < 2 ^ 64) : to_size (n : Int) = n := by
  unfold to_size; omega

theorem to_int_natCast (n : Nat) (h : n < 2 ^ 31) : to_int (n : Int) = n := by
  unfold to_int; omega

theorem load_texture_rows_post (w h L : Nat) (pixmap t0 t : List Nat)
    (hP : packed_upto pixmap t0 L 0)
    (hrun : forLoop h (fun j texture =>
      forLoop w (load_texture_body (w : Int) pixmap j) texture) t0 = some t) :
    packed_upto pixmap t L (h * w) := by
  have := forLoop_post h _ t0 t (fun j tex => packed_upto pixmap tex L (j * w)) hrun
    (by simpa using hP)
    (fun j a b _ hPa hab => by
      have hrow := forLoop_post w _ a b (fun i tex => packed_upto pixmap tex L (i + j * w)) hab
        (by simpa using hPa)
        (fun i a' b' _ hPa' hab' => load_texture_body_post w pixmap j i L a' b' hPa' hab')
      have e : (j + 1) * w = w + j * w := by ring
      show packed_upto pixmap b L ((j + 1) * w)
      rw [e]; exact hrow)
  exact this

/-- What a successful `load_texture` leaves in its reference parameters. -/
theorem load_texture_success (w h : Nat) (c : Int) (pixmap : List Nat) (out : Atlas)
    (res : LoadResult) (hw : 1 ≤ w) (hh : 1 ≤ h)
    (hrun : load_texture (some ⟨w, h, c, pixmap⟩) out = some res) (hret : res.ret = true) :
    c = 4 ∧ w = h * (w / h) ∧ res.out.text_cnt = w / h ∧ res.out.text_size = h ∧
    packed_upto pixmap res.out.texture (w * h) (h * w) ∧ w * h < 2 ^ 31 := by
  unfold load_texture at hrun
  simp only at hrun
  split_ifs at hrun with hc h0
  · cases hrun; simp at hret
  · obtain ⟨q, hq, hrun⟩ := Option.bind_eq_some.mp hrun
    obtain ⟨rfl, -, hq2⟩ := int_val_eq_some hq
    rw [← Int.ofNat_tdiv] at hrun hq2
    generalize hm : w / h = m at hrun hq2 ⊢
    have hcnt : to_size (m : Int) = m := to_size_natCast m (by omega)
    simp only [hcnt] at hrun
    split_ifs at hrun with hz
    obtain ⟨p, hp, hrun⟩ := Option.bind_eq_some.mp hrun
    have hp' := (int_val_eq_some hp).1
    rw [to_int_natCast m (by omega)] at hp'
    subst hp'
    split_ifs at hrun with hne
    · cases hrun; simp at hret
    · obtain ⟨n, hn, hrun⟩ := Option.bind_eq_some.mp hrun
      obtain ⟨rfl, -, hn2⟩ := int_val_eq_some hn
      obtain ⟨tex, htex, hrun⟩ := Option.bind_eq_some.mp hrun
      cases hrun
      have hweq : w = h * m := by
        have : (w : Int) = ((h * m : Nat) : Int) := by
          push_cast; exact not_not.mp hne
        exact Int.ofNat_inj.mp this
      have hwh : ((w : Int) * h) = ((w * h : Nat) : Int) := by push_cast; ring
      rw [hwh] at htex hn2
      have hwlt : w < 2 ^ 31 := by
        have : w * 1 ≤ w * h := Nat.mul_le_mul_left w hh
        omega
      rw [to_size_natCast (w * h) (by omega)] at htex
      simp only [Int.toNat_ofNat] at htex
      refine ⟨not_not.mp hc, hweq, rfl, ?_, ?_, by omega⟩
      · show to_size (w : Int) / m = h
        rw [to_size_natCast w (by omega), hweq]
        exact Nat.mul_div_cancel h (Nat.pos_of_ne_zero hz)
      · exact load_texture_rows_post w h (w * h) pixmap _ tex
          ⟨by simp, fun k hk => absurd hk (Nat.not_lt_zero k)⟩ htex

/-- C5 (the code's defect): a decoded 4-channel image of width 1 and height 2 makes
`load_texture` compute `text_cnt = 1 / 2 = 0` and then divide `w` by it; the call does not
return `false`, it faults. -/
theorem load_texture_tall_image_faults :
    load_texture (some ⟨1, 2, 4, [10, 20, 30, 255, 40, 50, 60, 255]⟩) ⟨[], 0, 0⟩ = none := by
  decide

/-- Every 4-channel image that is taller than wide makes `load_texture` divide by a zero
texture count. -/
theorem load_texture_taller_than_wide (w h : Nat) (pixmap : List Nat) (out : Atlas)
    (hw : w < h) :
    load_texture (some ⟨w, h, 4, pixmap⟩) out = none := by
  have hq : w / h = 0 := Nat.div_eq_of_lt hw
  have h0 : ¬ ((h : Int) = 0) := by omega
  unfold load_texture
  simp only [ne_eq, not_true_eq_false, if_false, h0, ← Int.ofNat_tdiv, hq]
  rfl

/-- An image whose channel count is not 4 makes `load_texture` return `false` with its
channel error, the reference parameters untouched. -/
theorem load_texture_wrong_channels (w h c : Int) (pixmap : List Nat) (out : Atlas)
    (hc : c ≠ 4) :
    load_texture (some ⟨w, h, c, pixmap⟩) out
      = some ⟨false, out, ["Error: the texture must be a 32 bit image"]⟩ := by
  unfold load_texture
  simp only [ne_eq, hc, not_false_eq_true, if_true]

/-- A 4-channel image at least as wide as high whose width is not a multiple of its height
makes `load_texture` return `false` with its packing error. -/
theorem load_texture_not_multiple (w h : Nat) (pixmap : List Nat) (out : Atlas)
    (hh : 1 ≤ h) (hhw : h ≤ w) (hw : w < 2 ^ 31) (hnd : ¬ h ∣ w) :
    ∃ res, load_texture (some ⟨w, h, 4, pixmap⟩) out = some res ∧ res.ret = false ∧
      res.err = ["Error: the texture file must contain N square textures packed horizontally"]
      := by
  have hq1 : 1 ≤ w / h := (Nat.one_le_div_iff (by omega)).mpr hhw
  have hq2 : w / h ≤ w := Nat.div_le_self w h
  have hmul : h * (w / h) ≤ w := Nat.mul_div_le w h
  have hne : w ≠ h * (w / h) := fun e => hnd ⟨w / h, e⟩
  have h0 : ¬ ((h : Int) = 0) := by omega
  generalize hm : w / h = m at hq1 hq2 hmul hne
  have e1 : int_val ((m : Nat) : Int) = some (m : Int) := by
    unfold int_val; rw [if_pos ⟨by omega, by omega⟩]
  have e2 : int_val ((h : Int) * (m : Int)) = some ((h : Int) * (m : Int)) := by
    have : ((h : Int) * (m : Int)) = ((h * m : Nat) : Int) := by push_cast; ring
    unfold int_val; rw [this, if_pos ⟨by omega, by omega⟩]
  have e3 : ¬ ((w : Int) = (h : Int) * (m : Int)) := by
    intro e
    have : (w : Int) = ((h * m : Nat) : Int) := by push_cast; exact e
    exact hne (Int.ofNat_inj.mp this)
  have e4 : ¬ (m = 0) := by omega
  unfold load_texture
  simp only [ne_eq, not_true_eq_false, if_false, h0, ← Int.ofNat_tdiv, hm, e1,
    Option.some_bind, to_size_natCast m (by omega), to_int_natCast m (by omega), e2, e3, e4,
    not_false_eq_true, if_true]
  exact ⟨_, rfl, rfl, rfl⟩

/-- The texture side that a successful `load_texture` yields fits an `int`. -/
theorem load_texture_size_lt (w h : Nat) (c : Int) (pixmap : List Nat) (out : Atlas)
    (res : LoadResult) (hw : 1 ≤ w) (hh : 1 ≤ h)
    (hrun : load_texture (some ⟨w, h, c, pixmap⟩) out = some res) (hret : res.ret = true) :
    1 ≤ res.out.text_size ∧ res.out.text_size < 2 ^ 31 := by
  obtain ⟨-, -, -, hsize, -, hlt⟩ :=
    load_texture_success w h c pixmap out res hw hh hrun hret
  have : h * 1 ≤ w * h := by rw [Nat.mul_comm w h]; exact Nat.mul_le_mul_left h hw
  rw [hsize]
  constructor <;> omega

/-- C6: whenever `load_texture` succeeds on a decoded `w * h` image (`w, h >= 1`), it yields
`text_cnt = w / h`, `text_size = h` with `text_cnt * text_size = w`, and a texture array of
exactly `w * h` entries whose entry `i + j * w` is `pack_color` of the four bytes of pixel
`(i, j)`, for every `i < w` and `j < h`. -/
theorem load_texture_atlas (w h : Nat) (c : Int) (pixmap : List Nat) (out : Atlas)
    (res : LoadResult) (hw : 1 ≤ w) (hh : 1 ≤ h)
    (hrun : load_texture (some ⟨w, h, c, pixmap⟩) out = some res) (hret : res.ret = true) :
    res.out.text_cnt = w / h ∧ res.out.text_size = h ∧
    res.out.text_cnt * res.out.text_size = w ∧
    res.out.texture.length = w * h ∧
    ∀ i j, i < w → j < h → ∃ r g b a,
      pixmap[(i + j * w) * 4]? = some r ∧ pixmap[(i + j * w) * 4 + 1]? = some g ∧
      pixmap[(i + j * w) * 4 + 2]? = some b ∧ pixmap[(i + j * w) * 4 + 3]? = some a ∧
      res.out.texture[i + j * w]? = some (pack_color r g b a) := by
  obtain ⟨-, hdvd, hcnt, hsize, ⟨hlen, hpix⟩, -⟩ :=
    load_texture_success w h c pixmap out res hw hh hrun hret
  refine ⟨hcnt, hsize, ?_, hlen, ?_⟩
  · rw [hcnt, hsize, Nat.mul_comm]; exact hdvd.symm
  · intro i j hi hj
    apply hpix
    calc i + j * w < w + j * w := by omega
      _ = (j + 1) * w := by ring
      _ ≤ h * w := Nat.mul_le_mul_right w hj

theorem load_texture_atlas_witness :
    (⟨true, ⟨[4278387201, 134678021], 1, 2⟩, []⟩ : LoadResult).out.text_cnt = 2 / 1 ∧
    (⟨true, ⟨[4278387201, 134678021], 1, 2⟩, []⟩ : LoadResult).out.text_size = 1 ∧
    (⟨true, ⟨[4278387201, 134678021], 1, 2⟩, []⟩ : LoadResult).out.text_cnt
      * (⟨true, ⟨[4278387201, 134678021], 1, 2⟩, []⟩ : LoadResult).out.text_size = 2 ∧
    (⟨true, ⟨[4278387201, 134678021], 1, 2⟩, []⟩ : LoadResult).out.texture.length = 2 * 1 ∧
    ∀ i j, i < 2 → j < 1 → ∃ r g b a,
      [1, 2, 3, 255, 5, 6, 7, 8][(i + j * 2) * 4]? = some r ∧
      [1, 2, 3, 255, 5, 6, 7, 8][(i + j * 2) * 4 + 1]? = some g ∧
      [1, 2, 3, 255, 5, 6, 7, 8][(i + j * 2) * 4 + 2]? = some b ∧
      [1, 2, 3, 255, 5, 6, 7, 8][(i + j * 2) * 4 + 3]? = some a ∧
      (⟨true, ⟨[4278387201, 134678021], 1, 2⟩, []⟩ : LoadResult).out.texture[i + j * 2]?
        = some (pack_color r g b a) :=
  load_texture_atlas 2 1 4 [1, 2, 3, 255, 5, 6, 7, 8] ⟨[], 7, 9⟩
    ⟨true, ⟨[4278387201, 134678021], 1, 2⟩, []⟩ (by decide) (by decide) (by decide) rfl

theorem div3_eq_iff (q p : Nat) : q / 3 = p ↔ (q = p * 3 ∨ q = p * 3 + 1 ∨ q = p * 3 + 2) := by
  omega

/-- The effect of `put_pixel` on a buffer that holds pixel `p`: the three bytes of pixel `p`
are set, every other byte is kept. -/
theorem put_pixel_spec (px : List Nat) (p r g b : Nat) (hp : p * 3 + 2 < px.length)
    (hL : px.length < 2 ^ 64) :
    ∃ px', put_pixel px p r g b = some px' ∧ px'.length = px.length ∧
      ∀ m k, k < 3 → px'[m * 3 + k]? =
        if m = p then some (rgb_channel r g b k) else px[m * 3 + k]? := by
  have e0 : (p * 3 + 0) % 2 ^ 64 = p * 3 := by omega
  have e1 : (p * 3 + 1) % 2 ^ 64 = p * 3 + 1 := by omega
  have e2 : (p * 3 + 2) % 2 ^ 64 = p * 3 + 2 := by omega
  have l0 : p * 3 < px.length := by omega
  have l1 : p * 3 + 1 < px.length := by omega
  refine ⟨((px.set (p * 3) r).set (p * 3 + 1) g).set (p * 3 + 2) b, ?_, by simp, ?_⟩
  · unfold put_pixel write
    rw [e0, e1, e2]
    simp [l0, l1, hp]
  · intro m k hk
    simp only [List.getElem?_set, List.length_set, l0, l1, hp, if_true]
    by_cases hm : m = p
    · subst hm
      have : k = 0 ∨ k = 1 ∨ k = 2 := by omega
      rcases this with rfl | rfl | rfl <;> simp [rgb_channel]
    · have n0 : ¬ (p * 3 = m * 3 + k) := by omega
      have n1 : ¬ (p * 3 + 1 = m * 3 + k) := by omega
      have n2 : ¬ (p * 3 + 2 = m * 3 + k) := by omega
      simp [hm, n0, n1, n2]

theorem pixel_number_coords (W a b : Nat) (ha : a < W) :
    (a + b * W) % W = a ∧ (a + b * W) / W = b := by
  constructor
  · rw [Nat.add_mul_mod_self_right, Nat.mod_eq_of_lt ha]
  · rw [Nat.add_mul_div_right _ _ (by omega), Nat.div_eq_of_lt ha, Nat.zero_add]

theorem pixel_number_lt (W H a b : Nat) (ha : a < W) (hb : b < H) : a + b * W < W * H := by
  calc a + b * W < W + b * W := by omega
    _ = (b + 1) * W := by ring
    _ ≤ H * W := Nat.mul_le_mul_right W hb
    _ = W * H := Nat.mul_comm _ _

theorem pixel_number_eq_iff (W a b m : Nat) (ha : a < W) :
    m = a + b * W ↔ (m % W = a ∧ m / W = b) := by
  constructor
  · rintro rfl; exact pixel_number_coords W a b ha
  · rintro ⟨h1, h2⟩
    have := Nat.mod_add_div' m W
    rw [h1, h2] at this
    exact this.symm

theorem rect_inv_step (pixels : List Nat) (img_w img_h x y w h r g b i j : Nat)
    (px : List Nat) (hlen : pixels.length = img_w * img_h * 3) (hL : pixels.length < 2 ^ 64)
    (hx : x + w ≤ 2 ^ 64) (hy : y + h ≤ 2 ^ 64) (hi : i < w) (hj : j < h)
    (hinv : rect_inv pixels img_w img_h x y h r g b i j px) :
    ∃ px', draw_rectangle_body img_w img_h x y r g b i j px = some px' ∧
      rect_inv pixels img_w img_h x y h r g b i (j + 1) px' := by
  obtain ⟨hl, hall⟩ := hinv
  have ecx : (x + i) % 2 ^ 64 = x + i := Nat.mod_eq_of_lt (by omega)
  have ecy : (y + j) % 2 ^ 64 = y + j := Nat.mod_eq_of_lt (by omega)
  unfold draw_rectangle_body
  simp only [ecx, ecy]
  by_cases hout : x + i ≥ img_w ∨ y + j ≥ img_h
  · rw [if_pos hout]
    refine ⟨px, rfl, hl, ?_⟩
    have hsame : ∀ m, rect_visited img_w img_h x y h i (j + 1) m
        ↔ rect_visited img_w img_h x y h i j m := by
      intro m
      unfold rect_visited
      constructor
      · rintro ⟨hm, hc⟩
        have hW : 0 < img_w := Nat.pos_of_ne_zero (by rintro rfl; simp at hm)
        have h1 : m % img_w < img_w := Nat.mod_lt _ hW
        have h2 : m / img_w < img_h := Nat.div_lt_of_lt_mul hm
        refine ⟨hm, ?_⟩
        rcases hc with hc | ⟨c1, c2, c3⟩
        · exact Or.inl hc
        · right; refine ⟨c1, c2, ?_⟩; omega
      · rintro ⟨hm, hc⟩
        refine ⟨hm, ?_⟩
        rcases hc with hc | ⟨c1, c2, c3⟩
        · exact Or.inl hc
        · right; exact ⟨c1, c2, by omega⟩
    intro m k hk
    rw [hsame m]
    exact hall m k hk
  · rw [if_neg hout]
    have hcx : x + i < img_w := by omega
    have hcy : y + j < img_h := by omega
    have hplt := pixel_number_lt img_w img_h (x + i) (y + j) hcx hcy
    have ep : (x + i + (y + j) * img_w) % 2 ^ 64 = x + i + (y + j) * img_w :=
      Nat.mod_eq_of_lt (by omega)
    rw [ep]
    obtain ⟨px', hput, hl', hpx'⟩ := put_pixel_spec px (x + i + (y + j) * img_w) r g b
      (by omega) (by omega)
    refine ⟨px', hput, hl'.trans hl, ?_⟩
    have hnew : ∀ m, rect_visited img_w img_h x y h i (j + 1) m
        ↔ (rect_visited img_w img_h x y h i j m ∨ m = x + i + (y + j) * img_w) := by
      intro m
      rw [pixel_number_eq_iff img_w (x + i) (y + j) m hcx]
      unfold rect_visited
      constructor
      · rintro ⟨hm, hc⟩
        rcases hc with hc | ⟨c1, c2, c3⟩
        · exact Or.inl ⟨hm, Or.inl hc⟩
        · by_cases hlast : m / img_w = y + j
          · exact Or.inr ⟨c1, hlast⟩
          · exact Or.inl ⟨hm, Or.inr ⟨c1, c2, by omega⟩⟩
      · rintro (⟨hm, hc⟩ | ⟨c1, c2⟩)
        · refine ⟨hm, ?_⟩
          rcases hc with hc | ⟨c1, c2, c3⟩
          · exact Or.inl hc
          · exact Or.inr ⟨c1, c2, by omega⟩
        · refine ⟨?_, Or.inr ⟨c1, by omega, by omega⟩⟩
          have := (pixel_number_eq_iff img_w (x + i) (y + j) m hcx).mpr ⟨c1, c2⟩
          omega
    intro m k hk
    rw [hnew m, hpx' m k hk]
    by_cases hm : m = x + i + (y + j) * img_w
    · simp [hm]
    · simp only [hm, if_false, or_false]
      exact hall m k hk

theorem rect_inv_column (pixels : List Nat) (img_w img_h x y w h r g b i : Nat)
    (px : List Nat) (hlen : pixels.length = img_w * img_h * 3) (hL : pixels.length < 2 ^ 64)
    (hx : x + w ≤ 2 ^ 64) (hy : y + h ≤ 2 ^ 64) (hi : i < w)
    (hinv : rect_inv pixels img_w img_h x y h r g b i 0 px) :
    ∃ px', forLoop h (draw_rectangle_body img_w img_h x y r g b i) px = some px' ∧
      rect_inv pixels img_w img_h x y h r g b (i + 1) 0 px' := by
  obtain ⟨px', hrun, hP⟩ := forLoop_inv h (draw_rectangle_body img_w img_h x y r g b i) px
    (fun j t => rect_inv pixels img_w img_h x y h r g b i j t) hinv
    (fun j t hj ht => rect_inv_step pixels img_w img_h x y w h r g b i j t hlen hL hx hy hi hj ht)
  refine ⟨px', hrun, hP.1, ?_⟩
  have hsame : ∀ m, rect_visited img_w img_h x y h (i + 1) 0 m
      ↔ rect_visited img_w img_h x y h i h m := by
    intro m
    unfold rect_visited
    constructor
    · rintro ⟨hm, hc⟩
      refine ⟨hm, ?_⟩
      rcases hc with ⟨c1, c2, c3, c4⟩ | ⟨c1, c2, c3⟩
      · by_cases hlast : m % img_w = x + i
        · exact Or.inr ⟨hlast, c3, c4⟩
        · exact Or.inl ⟨c1, by omega, c3, c4⟩
      · omega
    · rintro ⟨hm, hc⟩
      refine ⟨hm, ?_⟩
      rcases hc with ⟨c1, c2, c3, c4⟩ | ⟨c1, c2, c3⟩
      · exact Or.inl ⟨c1, by omega, c3, c4⟩
      · exact Or.inl ⟨by omega, by omega, c2, c3⟩
  intro m k hk
  rw [hsame m]
  exact hP.2 m k hk

/-- What `draw_rectangle` does to a buffer of `img_w * img_h * 3` bytes: it returns, keeps the
length, sets the bytes of the pixels of the rectangle that lie in the image and keeps the
bytes of every other pixel. -/
theorem draw_rectangle_spec (pixels : List Nat) (img_w img_h x y w h color : Nat)
    (hlen : pixels.length = img_w * img_h * 3) (hL : pixels.length < 2 ^ 64)
    (hx : x + w ≤ 2 ^ 64) (hy : y + h ≤ 2 ^ 64) :
    ∃ res, draw_rectangle pixels img_w img_h x y w h color = some res ∧
      res.length = pixels.length ∧
      ∀ m k, k < 3 →
        ((m < img_w * img_h ∧ x ≤ m % img_w ∧ m % img_w < x + w ∧
            y ≤ m / img_w ∧ m / img_w < y + h) →
          res[m * 3 + k]? = some (rgb_channel (unpack_color color).1 (unpack_color color).2.1
            (unpack_color color).2.2.1 k)) ∧
        (¬ (m < img_w * img_h ∧ x ≤ m % img_w ∧ m % img_w < x + w ∧
            y ≤ m / img_w ∧ m / img_w < y + h) →
          res[m * 3 + k]? = pixels[m * 3 + k]?) := by
  obtain ⟨res, hrun, hP⟩ := forLoop_inv w
    (fun i px => forLoop h (draw_rectangle_body img_w img_h x y (unpack_color color).1
      (unpack_color color).2.1 (unpack_color color).2.2.1 i) px) pixels
    (fun i t => rect_inv pixels img_w img_h x y h (unpack_color color).1
      (unpack_color color).2.1 (unpack_color color).2.2.1 i 0 t)
    ⟨rfl, fun m k _ => ⟨fun hv => by
      unfold rect_visited at hv; omega, fun _ => rfl⟩⟩
    (fun i t hi ht => rect_inv_column pixels img_w img_h x y w h _ _ _ i t hlen hL hx hy hi ht)
  refine ⟨res, hrun, hP.1, ?_⟩
  have hsame : ∀ m, rect_visited img_w img_h x y h w 0 m ↔
      (m < img_w * img_h ∧ x ≤ m % img_w ∧ m % img_w < x + w ∧
        y ≤ m / img_w ∧ m / img_w < y + h) := by
    intro m
    unfold rect_visited
    constructor
    · rintro ⟨hm, hc⟩
      rcases hc with hc | ⟨c1, c2, c3⟩
      · exact ⟨hm, hc⟩
      · omega
    · rintro ⟨hm, hc⟩
      exact ⟨hm, Or.inl hc⟩
  intro m k hk
  rw [← hsame m]
  exact hP.2 m k hk

/-- C8: on a buffer of `img_w * img_h * 3` bytes, with `x + w` and `y + h` not overflowing,
`draw_rectangle` returns without writing outside the buffer, sets the three bytes of exactly
the pixels `(cx, cy)` with `x <= cx < x + w`, `y <= cy < y + h`, `cx < img_w`, `cy < img_h` to
the red, green and blue bytes of the colour, and leaves every other byte unchanged. -/
theorem draw_rectangle_effect (pixels : List Nat) (img_w img_h x y w h color : Nat)
    (hlen : pixels.length = img_w * img_h * 3) (hL : pixels.length < 2 ^ 64)
    (hx : x + w ≤ 2 ^ 64) (hy : y + h ≤ 2 ^ 64) :
    ∃ res, draw_rectangle pixels img_w img_h x y w h color = some res ∧
      res.length = pixels.length ∧
      (∀ cx cy k, cx < img_w → cy < img_h → k < 3 →
        ((x ≤ cx ∧ cx < x + w ∧ y ≤ cy ∧ cy < y + h) →
          res[(cx + cy * img_w) * 3 + k]? = some (rgb_channel (unpack_color color).1
            (unpack_color color).2.1 (unpack_color color).2.2.1 k)) ∧
        (¬ (x ≤ cx ∧ cx < x + w ∧ y ≤ cy ∧ cy < y + h) →
          res[(cx + cy * img_w) * 3 + k]? = pixels[(cx + cy * img_w) * 3 + k]?)) ∧
      (∀ q, q < pixels.length →
        ¬ (x ≤ (q / 3) % img_w ∧ (q / 3) % img_w < x + w ∧
            y ≤ (q / 3) / img_w ∧ (q / 3) / img_w < y + h) →
        res[q]? = pixels[q]?) := by
  obtain ⟨res, hrun, hl, hP⟩ :=
    draw_rectangle_spec pixels img_w img_h x y w h color hlen hL hx hy
  refine ⟨res, hrun, hl, ?_, ?_⟩
  · intro cx cy k hcx hcy hk
    obtain ⟨e1, e2⟩ := pixel_number_coords img_w cx cy hcx
    have hm := pixel_number_lt img_w img_h cx cy hcx hcy
    obtain ⟨hin, hout⟩ := hP (cx + cy * img_w) k hk
    rw [e1, e2] at hin hout
    exact ⟨fun hc => hin ⟨hm, hc⟩, fun hc => hout (fun hc' => hc hc'.2)⟩
  · intro q _ hq
    have hk : q % 3 < 3 := Nat.mod_lt _ (by decide)
    have e : q / 3 * 3 + q % 3 = q := Nat.div_add_mod' q 3
    have := (hP (q / 3) (q % 3) hk).2 (fun hc => hq hc.2)
    rw [e] at this
    exact this

theorem draw_rectangle_effect_witness :
    ∃ res, draw_rectangle (List.replicate 12 7) 2 2 1 0 1 2 (pack_color 10 20 30 255)
        = some res ∧
      res.length = (List.replicate 12 7).length ∧
      (∀ cx cy k, cx < 2 → cy < 2 → k < 3 →
        ((1 ≤ cx ∧ cx < 1 + 1 ∧ 0 ≤ cy ∧ cy < 0 + 2) →
          res[(cx + cy * 2) * 3 + k]? = some (rgb_channel
            (unpack_color (pack_color 10 20 30 255)).1
            (unpack_color (pack_color 10 20 30 255)).2.1
            (unpack_color (pack_color 10 20 30 255)).2.2.1 k)) ∧
        (¬ (1 ≤ cx ∧ cx < 1 + 1 ∧ 0 ≤ cy ∧ cy < 0 + 2) →
          res[(cx + cy * 2) * 3 + k]? = (List.replicate 12 7)[(cx + cy * 2) * 3 + k]?)) ∧
      (∀ q, q < (List.replicate 12 7).length →
        ¬ (1 ≤ (q / 3) % 2 ∧ (q / 3) % 2 < 1 + 1 ∧ 0 ≤ (q / 3) / 2 ∧ (q / 3) / 2 < 0 + 2) →
        res[q]? = (List.replicate 12 7)[q]?) :=
  draw_rectangle_effect (List.replicate 12 7) 2 2 1 0 1 2 (pack_color 10 20 30 255)
    (by decide) (by decide) (by decide) (by decide)

theorem frame_constants : win_w = 1024 ∧ win_h = 512 ∧ map_w = 16 ∧ map_h = 16 ∧
    rect_w = 32 ∧ rect_h = 32 := by decide

set_option maxRecDepth 100000 in
theorem map_length : map.length = 257 := by decide

set_option maxRecDepth 100000 in
theorem map_cells_all : (map.take 256).all (fun c => c = ' ' ∨ texid_of c < 6) = true := by
  decide

theorem map_texid_lt (idx : Nat) (c : Char) (hidx : idx < 256) (hc : map[idx]? = some c)
    (hw : c ≠ ' ') : texid_of c < 6 := by
  have hmem : c ∈ map.take 256 := by
    rw [List.mem_iff_getElem?]
    exact ⟨idx, by rw [List.getElem?_take_of_lt hidx]; exact hc⟩
  have := List.all_eq_true.mp map_cells_all c hmem
  simpa [hw] using this

theorem map_painted_succ (mp : List Char) (walltext : List Nat) (S j i m : Nat)
    (hi : i < 16) :
    map_painted mp walltext S j (i + 1) m =
      if m < 1024 * 512 ∧ m % 1024 / 32 = i ∧ m / 1024 / 32 = j then
        cell_colour mp walltext S i j
      else map_painted mp walltext S j i m := by
  unfold map_painted
  by_cases hc : m < 1024 * 512 ∧ m % 1024 / 32 = i ∧ m / 1024 / 32 = j
  · obtain ⟨h1, h2, h3⟩ := hc
    rw [if_pos (⟨h1, by omega, by omega⟩ : m < 1024 * 512 ∧ m % 1024 < 512 ∧
      (m / 1024 / 32 < j ∨ (m / 1024 / 32 = j ∧ m % 1024 / 32 < i + 1))),
      if_pos (⟨h1, h2, h3⟩ : m < 1024 * 512 ∧ m % 1024 / 32 = i ∧ m / 1024 / 32 = j), h2, h3]
  · rw [if_neg hc]
    by_cases hold : m < 1024 * 512 ∧ m % 1024 < 512 ∧
        (m / 1024 / 32 < j ∨ (m / 1024 / 32 = j ∧ m % 1024 / 32 < i))
    · rw [if_pos hold, if_pos ⟨hold.1, hold.2.1, by omega⟩]
    · rw [if_neg hold, if_neg]
      rintro ⟨h1, h2, h3⟩
      apply hold
      refine ⟨h1, h2, ?_⟩
      rcases h3 with h3 | ⟨h3, h4⟩
      · exact Or.inl h3
      · by_cases h5 : m % 1024 / 32 = i
        · exact absurd ⟨h1, h5, h3⟩ hc
        · exact Or.inr ⟨h3, by omega⟩

theorem map_painted_row (mp : List Char) (walltext : List Nat) (S j m : Nat) :
    map_painted mp walltext S (j + 1) 0 m = map_painted mp walltext S j 16 m := by
  unfold map_painted
  by_cases hc : m < 1024 * 512 ∧ m % 1024 < 512 ∧
      (m / 1024 / 32 < j + 1 ∨ (m / 1024 / 32 = j + 1 ∧ m % 1024 / 32 < 0))
  · rw [if_pos hc, if_pos ⟨hc.1, hc.2.1, by omega⟩]
  · rw [if_neg hc, if_neg]
    rintro ⟨h1, h2, h3⟩
    exact hc ⟨h1, h2, by omega⟩

theorem map_inv_step (mp : List Char) (walltext : List Nat) (S N : Nat) (pixels px : List Nat)
    (j i : Nat) (hmp : 256 ≤ mp.length)
    (hwall : ∀ idx c, idx < 256 → mp[idx]? = some c → c ≠ ' ' → texid_of c < N)
    (hlen : walltext.length = N * S * S) (hbig : walltext.length < 2 ^ 64) (hS : 1 ≤ S)
    (hpix : pixels.length = 1024 * 512 * 3) (hj : j < 16) (hi : i < 16)
    (hinv : map_inv mp walltext S pixels j i px) :
    ∃ px', draw_map_cell mp walltext S N j i px = some px' ∧
      map_inv mp walltext S pixels j (i + 1) px' := by
  obtain ⟨hl, hall⟩ := hinv
  obtain ⟨-, -, hmw, -, hrw, hrh⟩ := frame_constants
  have hidx : (i + j * 16) % 2 ^ 64 = i + j * 16 := by omega
  have hin : i + j * 16 < mp.length := by omega
  have hget : mp[i + j * 16]? = some (mp[i + j * 16]) := List.getElem?_eq_getElem hin
  generalize mp[i + j * 16] = c at hget
  unfold draw_map_cell
  simp only [hmw, hrw, hrh, hidx, hget]
  by_cases hsp : c = ' '
  · rw [if_pos hsp]
    refine ⟨px, rfl, hl, ?_⟩
    intro m k hk
    have hcc : cell_colour mp walltext S i j = none := by
      unfold cell_colour; simp only [hget, hsp, if_true]
    rw [map_painted_succ mp walltext S j i m hi, hcc, hall m k hk]
    by_cases hc : m < 1024 * 512 ∧ m % 1024 / 32 = i ∧ m / 1024 / 32 = j
    · rw [if_pos hc]
      have : map_painted mp walltext S j i m = none := by
        unfold map_painted; rw [if_neg]; omega
      rw [this]
    · rw [if_neg hc]
  · rw [if_neg hsp]
    have htex := hwall (i + j * 16) c (by omega) hget hsp
    have hNS : N * S ≤ N * S * S := Nat.le_mul_of_pos_right _ hS
    have htS : texid_of c * S < N * S := Nat.mul_lt_mul_of_pos_right htex hS
    have hmod : (texid_of c * S) % 2 ^ 64 = texid_of c * S := Nat.mod_eq_of_lt (by omega)
    obtain ⟨color, hcol⟩ : ∃ color, walltext[texid_of c * S]? = some color :=
      ⟨_, List.getElem?_eq_getElem (by omega)⟩
    simp only [htex, if_true, hmod, hcol]
    have hx : (i * 32) % 2 ^ 64 = i * 32 := by omega
    have hy : (j * 32) % 2 ^ 64 = j * 32 := by omega
    rw [hx, hy]
    obtain ⟨res, hrun, hl', hres⟩ := draw_rectangle_spec px 1024 512 (i * 32) (j * 32) 32 32
      color (by omega) (by omega) (by omega) (by omega)
    refine ⟨res, ?_, hl'.trans hl, ?_⟩
    · have hw : win_w = 1024 := rfl
      have hh : win_h = 512 := rfl
      rw [hw, hh]; exact hrun
    · intro m k hk
      have hcc : cell_colour mp walltext S i j = some color := by
        unfold cell_colour; simp only [hget, hsp, if_false, hcol]
      rw [map_painted_succ mp walltext S j i m hi, hcc]
      obtain ⟨hin', hout'⟩ := hres m k hk
      by_cases hc : m < 1024 * 512 ∧ m % 1024 / 32 = i ∧ m / 1024 / 32 = j
      · rw [if_pos hc]
        exact hin' ⟨hc.1, by omega, by omega, by omega, by omega⟩
      · rw [if_neg hc, hout' (fun h => hc ⟨h.1, by omega, by omega⟩)]
        exact hall m k hk

theorem cell_colour_of_get (mp : List Char) (walltext : List Nat) (S ci cj : Nat) (c : Char)
    (h : mp[ci + cj * 16]? = some c) :
    cell_colour mp walltext S ci cj = if c = ' ' then none else walltext[texid_of c * S]? := by
  unfold cell_colour
  simp only [h]

/-- What the minimap pass does to a frame buffer: it returns, and pixel number `m` holds the
colour of the wall cell whose block contains it, or what it held before. -/
theorem draw_map_spec (mp : List Char) (walltext : List Nat) (S N : Nat) (pixels : List Nat)
    (hmp : 256 ≤ mp.length)
    (hwall : ∀ idx c, idx < 256 → mp[idx]? = some c → c ≠ ' ' → texid_of c < N)
    (hlen : walltext.length = N * S * S) (hbig : walltext.length < 2 ^ 64) (hS : 1 ≤ S)
    (hpix : pixels.length = 1024 * 512 * 3) :
    ∃ res, draw_map mp walltext S N pixels = some res ∧
      map_inv mp walltext S pixels 16 0 res := by
  have hinit : map_inv mp walltext S pixels 0 0 pixels := by
    refine ⟨rfl, fun m k _ => ?_⟩
    have : map_painted mp walltext S 0 0 m = none := by
      unfold map_painted; rw [if_neg]; omega
    rw [this]
  exact forLoop_inv 16
    (fun j px => forLoop 16 (draw_map_cell mp walltext S N j) px) pixels
    (fun j t => map_inv mp walltext S pixels j 0 t) hinit
    (fun j t hj ht => by
      obtain ⟨t', hrun, hl, hP⟩ := forLoop_inv 16 (draw_map_cell mp walltext S N j) t
        (fun i u => map_inv mp walltext S pixels j i u) ht
        (fun i u hi hu =>
          map_inv_step mp walltext S N pixels u j i hmp hwall hlen hbig hS hpix hj hi hu)
      refine ⟨t', hrun, hl, fun m k hk => ?_⟩
      rw [map_painted_row]
      exact hP m k hk)

/-- C7: after the minimap pass over a frame buffer cleared to 255, for every cell `(i, j)` of
the map every pixel `(x, y)` of its 32x32 block holds the red, green and blue bytes of
`walltext[k * S]` when the cell is a wall with texture id `k`, and the background value when
the cell is empty; no pixel with `x >= 512` is modified. -/
theorem minimap_tiling (walltext : List Nat) (S N : Nat)
    (hlen : walltext.length = N * S * S) (hbig : walltext.length < 2 ^ 64) (hS : 1 ≤ S)
    (hN : 6 ≤ N) :
    ∃ res, draw_map map walltext S N (List.replicate (win_w * win_h * 3) 255) = some res ∧
      (∀ i j c, i < 16 → j < 16 → map[i + j * 16]? = some c →
        ∀ x y k, 32 * i ≤ x → x < 32 * (i + 1) → 32 * j ≤ y → y < 32 * (j + 1) → k < 3 →
          (c ≠ ' ' → ∃ color, walltext[texid_of c * S]? = some color ∧
            res[(x + y * 1024) * 3 + k]? = some (rgb_channel (unpack_color color).1
              (unpack_color color).2.1 (unpack_color color).2.2.1 k)) ∧
          (c = ' ' → res[(x + y * 1024) * 3 + k]? = some 255)) ∧
      (∀ x y k, 512 ≤ x → x < 1024 → y < 512 → k < 3 →
        res[(x + y * 1024) * 3 + k]? = some 255) := by
  have hpix : (List.replicate (win_w * win_h * 3) 255).length = 1024 * 512 * 3 := by
    rw [List.length_replicate]; rfl
  obtain ⟨res, hrun, -, hP⟩ := draw_map_spec map walltext S N
    (List.replicate (win_w * win_h * 3) 255) (by rw [map_length]; omega)
    (fun idx c hidx hc hw => Nat.lt_of_lt_of_le (map_texid_lt idx c hidx hc hw) hN)
    hlen hbig hS hpix
  have hbg : ∀ x y k, x < 1024 → y < 512 → k < 3 →
      (List.replicate (win_w * win_h * 3) 255)[(x + y * 1024) * 3 + k]? = some 255 := by
    intro x y k hx hy hk
    have hlt : (x + y * 1024) * 3 + k < win_w * win_h * 3 := by
      have h1 : win_w * win_h * 3 = 1024 * 512 * 3 := rfl
      omega
    rw [List.getElem?_eq_getElem (by rw [List.length_replicate]; exact hlt)]
    simp
  refine ⟨res, hrun, ?_, ?_⟩
  · intro i j c hi hj hc x y k hx1 hx2 hy1 hy2 hk
    have hpaint : map_painted map walltext S 16 0 (x + y * 1024)
        = cell_colour map walltext S i j := by
      unfold map_painted
      have e1 : (x + y * 1024) % 1024 = x := by omega
      have e2 : (x + y * 1024) / 1024 = y := by omega
      have e3 : x / 32 = i := by omega
      have e4 : y / 32 = j := by omega
      rw [e1, e2, e3, e4, if_pos ⟨by omega, by omega, by omega⟩]
    have hres := hP (x + y * 1024) k hk
    rw [hpaint, cell_colour_of_get map walltext S i j c hc] at hres
    constructor
    · intro hw
      have htex := map_texid_lt (i + j * 16) c (by omega) hc hw
      have hNS : N * S ≤ N * S * S := Nat.le_mul_of_pos_right _ hS
      have htS : texid_of c * S < 6 * S := Nat.mul_lt_mul_of_pos_right htex hS
      have h6 : 6 * S ≤ N * S := Nat.mul_le_mul_right S hN
      obtain ⟨color, hcol⟩ : ∃ color, walltext[texid_of c * S]? = some color :=
        ⟨_, List.getElem?_eq_getElem (by omega)⟩
      refine ⟨color, hcol, ?_⟩
      rw [if_neg hw, hcol] at hres
      exact hres
    · intro hsp
      rw [if_pos hsp] at hres
      rw [hres]
      exact hbg x y k (by omega) (by omega) hk
  · intro x y k hx1 hx2 hy hk
    have hpaint : map_painted map walltext S 16 0 (x + y * 1024) = none := by
      unfold map_painted
      rw [if_neg]
      omega
    have hres := hP (x + y * 1024) k hk
    rw [hpaint] at hres
    rw [hres]
    exact hbg x y k hx2 hy hk

theorem minimap_tiling_witness :
    ∃ res, draw_map map [10, 11, 12, 13, 14, 15] 1 6
        (List.replicate (win_w * win_h * 3) 255) = some res ∧
      (∀ i j c, i < 16 → j < 16 → map[i + j * 16]? = some c →
        ∀ x y k, 32 * i ≤ x → x < 32 * (i + 1) → 32 * j ≤ y → y < 32 * (j + 1) → k < 3 →
          (c ≠ ' ' → ∃ color, [10, 11, 12, 13, 14, 15][texid_of c * 1]? = some color ∧
            res[(x + y * 1024) * 3 + k]? = some (rgb_channel (unpack_color color).1
              (unpack_color color).2.1 (unpack_color color).2.2.1 k)) ∧
          (c = ' ' → res[(x + y * 1024) * 3 + k]? = some 255)) ∧
      (∀ x y k, 512 ≤ x → x < 1024 → y < 512 → k < 3 →
        res[(x + y * 1024) * 3 + k]? = some 255) :=
  minimap_tiling [10, 11, 12, 13, 14, 15] 1 6 (by decide) (by decide) (by decide) (by decide)

theorem trunc_of_nonneg (q : ℚ) (h : 0 ≤ q) : trunc q = ⌊q⌋ := by
  unfold trunc; rw [if_pos h]

theorem column_height_eq_some (t cd : ℚ) (h : Nat) (hne : t * cd ≠ 0)
    (hres : column_height t cd = some h) :
    trunc (512 / (t * cd)) = h ∧ (h : Int) < 2 ^ 64 := by
  unfold column_height float_to_size at hres
  have hw : ((win_h : Nat) : ℚ) = 512 := by norm_num [win_h]
  rw [hw, if_neg hne] at hres
  split_ifs at hres with h1
  have := Option.some.inj hres
  refine ⟨?_, ?_⟩ <;> omega

theorem column_height_of_floor (t cd : ℚ) (n : Nat) (hpos : 0 < t * cd)
    (hf : ⌊(512 : ℚ) / (t * cd)⌋ = n) (hn : n < 2 ^ 64) : column_height t cd = some n := by
  have hq : (0 : ℚ) ≤ 512 / (t * cd) := by positivity
  have hw : ((win_h : Nat) : ℚ) = 512 := by norm_num [win_h]
  unfold column_height float_to_size
  rw [hw, if_neg hpos.ne', trunc_of_nonneg _ hq, hf, if_pos ⟨by omega, by omega⟩]
  rfl

/-- The column heights that `main` computes for a hit: at a travelled distance of at least one
`float` step and a cosine of at least `1/2` (the cosine within half the field of view is above
`0.86`), `column_height` is at most `102400`. -/
theorem column_height_le (t cd : ℚ) (h : Nat) (ht : float_step ≤ t) (hcd : 1 / 2 ≤ cd)
    (hres : column_height t cd = some h) : h ≤ 102400 := by
  have hstep : (5368709 : ℚ) / 536870912 ≤ t := ht
  have hpos : 0 < t * cd := mul_pos (by linarith) (by linarith)
  obtain ⟨htr, -⟩ := column_height_eq_some t cd h hpos.ne' hres
  have hq : (0 : ℚ) ≤ 512 / (t * cd) := by positivity
  rw [trunc_of_nonneg _ hq] at htr
  have hprod : 5368709 / 536870912 * (1 / 2) ≤ t * cd :=
    mul_le_mul hstep hcd (by norm_num) (by linarith)
  have hle : (512 : ℚ) / (t * cd) < 102401 := by
    rw [div_lt_iff₀ hpos]
    linarith
  have hfl : ⌊(512 : ℚ) / (t * cd)⌋ < 102401 := Int.floor_lt.mpr (by exact_mod_cast hle)
  omega

/-- The rows of the columns that `main` requests do not overflow: for a texture side below
`2^31` and a column of at most `102400` rows every product `r * S` is a `size_t`. -/
theorem texture_column_rows_fit (S h r : Nat) (hS31 : S < 2 ^ 31) (hh : h ≤ 102400)
    (hr : r < h) : r * S < 2 ^ 64 := by
  have h1 : r * S ≤ 102400 * S := Nat.mul_le_mul_right S (by omega)
  omega

/-- C10 (as stated, refuted): for `cos d = 1` the raw distances `19 < 39/2` give the corrected
distances `19 < 39/2`, but both column heights are `26 = trunc(512 / 19) = trunc(512 / 19.5)`:
the height at the larger distance is not strictly smaller. -/
theorem column_height_strict_counterexample :
    ¬ ∀ (cd t1 t2 : ℚ) (h1 h2 : Nat), 0 < cd → 0 < t1 → t1 < t2 →
      column_height t1 cd = some h1 → column_height t2 cd = some h2 →
      t1 * cd < t2 * cd ∧ h2 < h1 := by
  intro hall
  have e1 : column_height 19 1 = some 26 :=
    column_height_of_floor 19 1 26 (by norm_num) (by rw [Int.floor_eq_iff]; norm_num)
      (by norm_num)
  have e2 : column_height (39 / 2) 1 = some 26 :=
    column_height_of_floor (39 / 2) 1 26 (by norm_num) (by rw [Int.floor_eq_iff]; norm_num)
      (by norm_num)
  have := (hall 1 19 (39 / 2) 26 26 (by norm_num) (by norm_num) (by norm_num) e1 e2).2
  omega

/-- C10 (amended): for `cos d > 0` and raw distances `0 < t1 < t2`, the corrected distance
`t1 * cos d` is strictly less than `t2 * cos d`, and whenever the column height at `t1` is
computed, the one at `t2` is computed too and is less than or equal to it. -/
theorem column_height_antitone (cd t1 t2 : ℚ) (h1 : Nat) (hcd : 0 < cd) (ht1 : 0 < t1)
    (ht : t1 < t2) (hres : column_height t1 cd = some h1) :
    t1 * cd < t2 * cd ∧ ∃ h2, column_height t2 cd = some h2 ∧ h2 ≤ h1 := by
  have hlt : t1 * cd < t2 * cd := mul_lt_mul_of_pos_right ht hcd
  have hp1 : 0 < t1 * cd := mul_pos ht1 hcd
  have hp2 : 0 < t2 * cd := mul_pos (ht1.trans ht) hcd
  obtain ⟨htr, hbound⟩ := column_height_eq_some t1 cd h1 hp1.ne' hres
  have hq1 : (0 : ℚ) ≤ 512 / (t1 * cd) := by positivity
  have hq2 : (0 : ℚ) ≤ 512 / (t2 * cd) := by positivity
  have hle : (512 : ℚ) / (t2 * cd) ≤ 512 / (t1 * cd) :=
    div_le_div_of_nonneg_left (by norm_num) hp1 hlt.le
  have hfl : ⌊(512 : ℚ) / (t2 * cd)⌋ ≤ ⌊(512 : ℚ) / (t1 * cd)⌋ := Int.floor_mono hle
  have hf0 : (0 : Int) ≤ ⌊(512 : ℚ) / (t2 * cd)⌋ := Int.floor_nonneg.mpr hq2
  rw [trunc_of_nonneg _ hq1] at htr
  refine ⟨hlt, ⌊(512 : ℚ) / (t2 * cd)⌋.toNat, ?_, by omega⟩
  have hw : ((win_h : Nat) : ℚ) = 512 := by norm_num [win_h]
  unfold column_height float_to_size
  rw [hw, if_neg hp2.ne', trunc_of_nonneg _ hq2, if_pos ⟨hf0, by omega⟩]

theorem column_height_antitone_witness :
    (1 : ℚ) * 1 < 2 * 1 ∧ ∃ h2, column_height 2 1 = some h2 ∧ h2 ≤ 512 :=
  column_height_antitone 1 1 2 512 (by norm_num) (by norm_num) (by norm_num)
    (column_height_of_floor 1 1 512 (by norm_num) (by rw [Int.floor_eq_iff]; norm_num)
      (by norm_num))

theorem float_to_int_floor (q : ℚ) (n : Nat) (h0 : 0 ≤ q) (h1 : q < n) (hn : n ≤ 2 ^ 31) :
    float_to_int q = some ((⌊q⌋.toNat : Nat) : Int) ∧ ⌊q⌋.toNat < n := by
  have hf0 : (0 : Int) ≤ ⌊q⌋ := Int.floor_nonneg.mpr h0
  have hf1 : ⌊q⌋ < (n : Int) := Int.floor_lt.mpr (by exact_mod_cast h1)
  have hcast : ((⌊q⌋.toNat : Nat) : Int) = ⌊q⌋ := Int.toNat_of_nonneg hf0
  refine ⟨?_, by omega⟩
  unfold float_to_int
  rw [trunc_of_nonneg q h0, hcast, if_pos ⟨by omega, by omega⟩]

/-- One iteration of the march at a sample that lies in an empty cell of the map: the cone
pixel is painted in the left half of the frame and the loop goes on. -/
theorem march_step_empty (cos sin : ℚ → ℚ) (mp : List Char) (walltext : List Nat)
    (S N : Nat) (player_x player_y player_a angle : ℚ) (i fuel : Nat) (t : ℚ)
    (px : List Nat) (hpx : px.length = 1024 * 512 * 3) (ht : t < 20)
    (hs : sample_empty cos sin mp player_x player_y angle t) :
    ∃ px', march cos sin mp walltext S N player_x player_y player_a angle i (fuel + 1) t px
        = march cos sin mp walltext S N player_x player_y player_a angle i fuel
            (t + 1 / 100) px' ∧
      px'.length = px.length ∧
      ∀ m k, k < 3 → 512 ≤ m % 1024 → px'[m * 3 + k]? = px[m * 3 + k]? := by
  obtain ⟨hx0, hx1, hy0, hy1, hcell⟩ := hs
  have hrw : ((rect_w : Nat) : ℚ) = 32 := by norm_num [rect_w, win_w, map_w]
  have hrh : ((rect_h : Nat) : ℚ) = 32 := by norm_num [rect_h, win_h, map_h]
  obtain ⟨hpx1, hpx2⟩ := float_to_int_floor ((player_x + t * cos angle) * 32) 512
    (by positivity) (by push_cast; linarith) (by norm_num)
  obtain ⟨hpy1, hpy2⟩ := float_to_int_floor ((player_y + t * sin angle) * 32) 512
    (by positivity) (by push_cast; linarith) (by norm_num)
  obtain ⟨hcx1, hcx2⟩ := float_to_int_floor (player_x + t * cos angle) 16
    hx0 (by push_cast; linarith) (by norm_num)
  obtain ⟨hcy1, hcy2⟩ := float_to_int_floor (player_y + t * sin angle) 16
    hy0 (by push_cast; linarith) (by norm_num)
  generalize ⌊(player_x + t * cos angle) * 32⌋.toNat = zx at hpx1 hpx2
  generalize ⌊(player_y + t * sin angle) * 32⌋.toNat = zy at hpy1 hpy2
  generalize ⌊player_x + t * cos angle⌋.toNat = ix at hcx1 hcx2 hcell
  generalize ⌊player_y + t * sin angle⌋.toNat = iy at hcy1 hcy2 hcell
  have ep : (to_size (zx : Int) + to_size (zy : Int) * win_w) % 2 ^ 64 = zx + zy * 1024 := by
    rw [to_size_natCast zx (by omega), to_size_natCast zy (by omega)]
    have : win_w = 1024 := rfl
    rw [this]; omega
  have ei : (to_size (ix : Int) + to_size (iy : Int) * map_w) % 2 ^ 64 = ix + iy * 16 := by
    rw [to_size_natCast ix (by omega), to_size_natCast iy (by omega)]
    have : map_w = 16 := rfl
    rw [this]; omega
  obtain ⟨px', hput, hl', hpx'⟩ := put_pixel_spec px (zx + zy * 1024) 160 160 160
    (by omega) (by omega)
  refine ⟨px', ?_, hl', ?_⟩
  · rw [march, if_pos ht]
    simp only [hrw, hrh, hpx1, hpy1, hcx1, hcy1, Option.some_bind, ep, ei, hput, hcell,
      ne_eq, not_true_eq_false, if_false]
  · intro m k hk hm
    rw [hpx' m k hk, if_neg]
    omega

/-- The march from iteration `k` when all the samples still to come lie in empty cells: after
`n = 2000 - k` more iterations the guard `t < 20` fails, no hit is reported, and the right
half of the frame is as it was. -/
theorem march_no_hit (cos sin : ℚ → ℚ) (mp : List Char) (walltext : List Nat)
    (S N : Nat) (player_x player_y player_a angle : ℚ) (i : Nat)
    (hs : ∀ k : Nat, k < 2000 →
      sample_empty cos sin mp player_x player_y angle ((k : ℚ) / 100)) :
    ∀ (n k : Nat) (px : List Nat), k + n = 2000 → px.length = 1024 * 512 * 3 →
      ∃ res, march cos sin mp walltext S N player_x player_y player_a angle i (n + 1)
          ((k : ℚ) / 100) px = some (res, none) ∧
        res.length = px.length ∧
        ∀ m c, c < 3 → 512 ≤ m % 1024 → res[m * 3 + c]? = px[m * 3 + c]? := by
  intro n
  induction n with
  | zero =>
    intro k px hk _
    have hk' : k = 2000 := by omega
    subst hk'
    refine ⟨px, ?_, rfl, fun _ _ _ _ => rfl⟩
    rw [march, if_neg (by norm_num)]
  | succ n ih =>
    intro k px hk hpx
    have hklt : k < 2000 := by omega
    have ht : (k : ℚ) / 100 < 20 := by
      have : (k : ℚ) < 2000 := by exact_mod_cast hklt
      linarith
    obtain ⟨px', hstep, hl', hkeep⟩ := march_step_empty cos sin mp walltext S N player_x
      player_y player_a angle i (n + 1) ((k : ℚ) / 100) px hpx ht (hs k hklt)
    have hnext : (k : ℚ) / 100 + 1 / 100 = ((k + 1 : Nat) : ℚ) / 100 := by
      push_cast; ring
    rw [hnext] at hstep
    obtain ⟨res, hres, hl, hright⟩ := ih (k + 1) px' (by omega) (hl'.trans hpx)
    refine ⟨res, hstep.trans hres, hl.trans hl', ?_⟩
    intro m c hc hm
    rw [hright m c hc hm, hkeep m c hc hm]

/-- C9: for every screen column `i < 512` and every camera state, if every point sampled by
the march (`t = 0, 0.01, ...` while `t < 20`) lies inside the map in an empty cell, the march
ends with no hit and no pixel of frame column `512 + i` is modified. -/
theorem cast_ray_no_hit (cos sin : ℚ → ℚ) (mp : List Char) (walltext : List Nat)
    (S N : Nat) (player_x player_y player_a : ℚ) (i : Nat) (pixels : List Nat)
    (hi : i < 512) (hpix : pixels.length = win_w * win_h * 3)
    (hs : ∀ k : Nat, k < 2000 →
      sample_empty cos sin mp player_x player_y (ray_angle player_a i) ((k : ℚ) / 100)) :
    ∃ res, cast_ray cos sin mp walltext S N player_x player_y player_a i pixels
        = some (res, none) ∧
      res.length = pixels.length ∧
      ∀ y k, y < 512 → k < 3 →
        res[((512 + i) + y * 1024) * 3 + k]? = pixels[((512 + i) + y * 1024) * 3 + k]? := by
  obtain ⟨res, hres, hl, hright⟩ := march_no_hit cos sin mp walltext S N player_x player_y
    player_a (ray_angle player_a i) i hs 2000 0 pixels (by omega) hpix
  refine ⟨res, ?_, hl, fun y k _ hk => hright _ k hk (by omega)⟩
  unfold cast_ray
  simpa using hres

theorem cast_ray_no_hit_witness :
    ∃ res, cast_ray (fun _ => 7069 / 10000) (fun _ => 7073 / 10000) (List.replicate 257 ' ')
        [] 0 0 (1 / 2) (1 / 2) (11 / 14 + fov / 2) 0 (List.replicate (win_w * win_h * 3) 255)
        = some (res, none) ∧
      res.length = (List.replicate (win_w * win_h * 3) 255).length ∧
      ∀ y k, y < 512 → k < 3 →
        res[((512 + 0) + y * 1024) * 3 + k]?
          = (List.replicate (win_w * win_h * 3) 255)[((512 + 0) + y * 1024) * 3 + k]? :=
  cast_ray_no_hit (fun _ => 7069 / 10000) (fun _ => 7073 / 10000) (List.replicate 257 ' ')
    [] 0 0 (1 / 2) (1 / 2) (11 / 14 + fov / 2) 0 (List.replicate (win_w * win_h * 3) 255)
    (by decide) (by rw [List.length_replicate]) (by
      intro k hk
      unfold sample_empty
      dsimp only
      have hk' : (k : ℚ) ≤ 1999 := by exact_mod_cast Nat.le_of_lt_succ hk
      have hk0 : (0 : ℚ) ≤ k := Nat.cast_nonneg k
      have hx0 : (0 : ℚ) ≤ 1 / 2 + (k : ℚ) / 100 * (7069 / 10000) := by positivity
      have hx1 : 1 / 2 + (k : ℚ) / 100 * (7069 / 10000) < 16 := by linarith
      have hy0 : (0 : ℚ) ≤ 1 / 2 + (k : ℚ) / 100 * (7073 / 10000) := by positivity
      have hy1 : 1 / 2 + (k : ℚ) / 100 * (7073 / 10000) < 16 := by linarith
      refine ⟨hx0, hx1, hy0, hy1, ?_⟩
      have hfx : ⌊1 / 2 + (k : ℚ) / 100 * (7069 / 10000)⌋ < 16 :=
        Int.floor_lt.mpr (by push_cast; exact hx1)
      have hfy : ⌊1 / 2 + (k : ℚ) / 100 * (7073 / 10000)⌋ < 16 :=
        Int.floor_lt.mpr (by push_cast; exact hy1)
      rw [List.getElem?_eq_getElem (by rw [List.length_replicate]; omega),
        List.getElem_replicate])

/-- C17: under the precondition of `texture_column` (`img.size() = (S*N)*S`, `texcoord < S`,
`texid < N`) and for every `column_height h >= 1`, the sampled source row `floor(y*S/h)` is
below `S` and the index `(texid*S + texcoord) + floor(y*S/h)*(S*N)` is below `img.size()` for
every `y < h`; the index the loop computes in `size_t` is below `img.size()` as well, and the
call returns. -/
theorem texture_column_reads_in_bounds (img : List Nat) (S N texid u h y : Nat)
    (hlen : img.length = (S * N) * S) (hbig : img.length < 2 ^ 64)
    (hid : texid < N) (hu : u < S) (_hh : 1 ≤ h) (hy : y < h) :
    y * S / h < S ∧
    (texid * S + u) + (y * S / h) * (S * N) < img.length ∧
    texture_column_index S N texid u h y < img.length ∧
    ∃ col, texture_column img S N texid u h = some col := by
  have hlen' : img.length = N * S * S := by rw [hlen, Nat.mul_comm S N]
  have hS : 1 ≤ S := by omega
  have hrow : y * S / h < S :=
    Nat.div_lt_of_lt_mul (Nat.mul_lt_mul_of_pos_right hy hS)
  have h1 : texid * S + u < N * S := by
    calc texid * S + u < texid * S + S := by omega
      _ = (texid + 1) * S := by ring
      _ ≤ N * S := Nat.mul_le_mul_right _ hid
  have h3 : y * S / h * (N * S) ≤ (S - 1) * (N * S) := Nat.mul_le_mul_right _ (by omega)
  have h4 : (S - 1) * (N * S) + N * S = N * S * S := by
    obtain ⟨k, rfl⟩ : ∃ k, S = k + 1 := ⟨S - 1, by omega⟩
    simp only [Nat.add_sub_cancel]; ring
  obtain ⟨hidx, -⟩ := texture_column_index_lt S N texid u h y (hlen' ▸ hbig) hid hu hy
  obtain ⟨col, hcol, -, -⟩ := texture_column_spec img S N texid u h hlen' hbig hid hu
  refine ⟨hrow, ?_, by rw [hlen']; exact hidx, col, hcol⟩
  rw [hlen', Nat.mul_comm S N]
  omega

theorem texture_column_reads_in_bounds_witness :
    3 * 2 / 5 < 2 ∧
    (1 * 2 + 0) + (3 * 2 / 5) * (2 * 2) < [10, 11, 12, 13, 20, 21, 22, 23].length ∧
    texture_column_index 2 2 1 0 5 3 < [10, 11, 12, 13, 20, 21, 22, 23].length ∧
    ∃ col, texture_column [10, 11, 12, 13, 20, 21, 22, 23] 2 2 1 0 5 = some col :=
  texture_column_reads_in_bounds [10, 11, 12, 13, 20, 21, 22, 23] 2 2 1 0 5 3
    (by decide) (by decide) (by decide) (by decide) (by decide) (by decide)

/-- C12: the array `map` holds `16 * 16` cells and the terminating null character, and for
every cell whose character is not a space the texture id `character - '0'` that the minimap
pass and the ray march derive is at most 5; hence `texid < walltext_cnt` holds for every wall
cell whenever the atlas has at least 6 textures. -/
theorem map_texture_ids :
    map.length = map_w * map_h + 1 ∧
    ∀ idx c, idx < 16 * 16 → map[idx]? = some c → c ≠ ' ' →
      texid_of c ≤ 5 ∧ ∀ walltext_cnt, 6 ≤ walltext_cnt → texid_of c < walltext_cnt := by
  refine ⟨by rw [map_length]; rfl, ?_⟩
  intro idx c hidx hc hw
  have := map_texid_lt idx c hidx hc hw
  exact ⟨by omega, fun n hn => by omega⟩

set_option maxRecDepth 100000 in
theorem map_texture_ids_witness :
    map.length = map_w * map_h + 1 ∧
    (texid_of '3' ≤ 5 ∧ ∀ walltext_cnt, 6 ≤ walltext_cnt → texid_of '3' < walltext_cnt) :=
  ⟨map_texture_ids.1, map_texture_ids.2 86 '3' (by decide) (by decide) (by decide)⟩

/-- C15 (as stated, refuted): on a 4-channel image of width 3 and height 2 `load_texture`
returns `false` with `text_size = 3` and `text_cnt = 1`, not the values 7 and 9 that the
caller's variables held before the call. -/
theorem load_texture_failure_counterexample :
    ¬ ∀ (decoded : Option Image) (out : Atlas) (res : LoadResult),
      load_texture decoded out = some res → res.ret = false → res.out = out := by
  intro hall
  have h := hall (some ⟨3, 2, 4, List.replicate 24 0⟩) ⟨[], 7, 9⟩
    ⟨false, ⟨[], 3, 1⟩,
      ["Error: the texture file must contain N square textures packed horizontally"]⟩
    (by decide) rfl
  exact absurd h (by decide)

/-- C15 (amended): whenever `load_texture` returns `false`, the texture pixel array keeps the
value it had before the call; when the cause is a decode failure or a channel count other than
4, `text_size` and `text_cnt` keep their values too; when the cause is the packing check they
hold `text_cnt = w / h` and `text_size = w / text_cnt`. -/
theorem load_texture_failure (decoded : Option Image) (out : Atlas) (res : LoadResult)
    (hrun : load_texture decoded out = some res) (hret : res.ret = false) :
    res.out.texture = out.texture ∧
    (decoded = none → res.out = out) ∧
    (∀ img, decoded = some img → img.nchannels ≠ 4 → res.out = out) ∧
    (∀ img, decoded = some img → img.nchannels = 4 →
      res.out.text_cnt = to_size (Int.tdiv img.w img.h) ∧
      res.out.text_size = to_size img.w / res.out.text_cnt) := by
  unfold load_texture at hrun
  cases decoded with
  | none =>
    simp only [Option.some.injEq] at hrun
    subst hrun
    exact ⟨rfl, fun _ => rfl, fun img h => (by cases h), fun img h => (by cases h)⟩
  | some im =>
    simp only at hrun
    split_ifs at hrun with hc h0
    · simp only [Option.some.injEq] at hrun
      subst hrun
      refine ⟨rfl, fun h => (by cases h), fun img _ _ => rfl, fun img h h4 => ?_⟩
      cases h
      exact absurd h4 hc
    · obtain ⟨q, hq, hrun⟩ := Option.bind_eq_some.mp hrun
      have hq' := (int_val_eq_some hq).1
      subst hq'
      split_ifs at hrun with hz
      obtain ⟨p, hp, hrun⟩ := Option.bind_eq_some.mp hrun
      split_ifs at hrun with hne
      · simp only [Option.some.injEq] at hrun
        subst hrun
        refine ⟨rfl, fun h => (by cases h), fun img h h4 => ?_, fun img h _ => ?_⟩
        · cases h
          exact absurd (not_not.mp hc) h4
        · cases h
          exact ⟨rfl, rfl⟩
      · obtain ⟨n, hn, hrun⟩ := Option.bind_eq_some.mp hrun
        obtain ⟨tex, htex, hrun⟩ := Option.bind_eq_some.mp hrun
        simp only [Option.some.injEq] at hrun
        subst hrun
        simp at hret

theorem load_texture_failure_witness :
    (⟨false, ⟨[], 3, 1⟩,
      ["Error: the texture file must contain N square textures packed horizontally"]⟩
        : LoadResult).out.texture = (⟨[], 7, 9⟩ : Atlas).texture ∧
    ((some ⟨3, 2, 4, List.replicate 24 0⟩ : Option Image) = none →
      (⟨false, ⟨[], 3, 1⟩,
        ["Error: the texture file must contain N square textures packed horizontally"]⟩
          : LoadResult).out = ⟨[], 7, 9⟩) ∧
    (∀ img, (some ⟨3, 2, 4, List.replicate 24 0⟩ : Option Image) = some img →
      img.nchannels ≠ 4 →
      (⟨false, ⟨[], 3, 1⟩,
        ["Error: the texture file must contain N square textures packed horizontally"]⟩
          : LoadResult).out = ⟨[], 7, 9⟩) ∧
    (∀ img, (some ⟨3, 2, 4, List.replicate 24 0⟩ : Option Image) = some img →
      img.nchannels = 4 →
      (⟨false, ⟨[], 3, 1⟩,
        ["Error: the texture file must contain N square textures packed horizontally"]⟩
          : LoadResult).out.text_cnt = to_size (Int.tdiv img.w img.h) ∧
      (⟨false, ⟨[], 3, 1⟩,
        ["Error: the texture file must contain N square textures packed horizontally"]⟩
          : LoadResult).out.text_size = to_size img.w /
        (⟨false, ⟨[], 3, 1⟩,
          ["Error: the texture file must contain N square textures packed horizontally"]⟩
            : LoadResult).out.text_cnt) :=
  load_texture_failure (some ⟨3, 2, 4, List.replicate 24 0⟩) ⟨[], 7, 9⟩
    ⟨false, ⟨[], 3, 1⟩,
      ["Error: the texture file must contain N square textures packed horizontally"]⟩
    (by decide) rfl

theorem blit_row_exact (h j : Nat) (_hj : j < h) (hh : h + 512 ≤ 2 ^ 33) :
    ((0 ≤ blit_row h j ∧ blit_row h j < 512) ↔
      (0 ≤ (j : Int) + 256 - (h / 2 : Nat) ∧ (j : Int) + 256 - (h / 2 : Nat) < 512)) ∧
    (0 ≤ (j : Int) + 256 - (h / 2 : Nat) → (j : Int) + 256 - (h / 2 : Nat) < 512 →
      blit_row h j = (j : Int) + 256 - (h / 2 : Nat)) := by
  have hw : win_h / 2 = 256 := rfl
  unfold blit_row to_int to_size
  rw [hw]
  push_cast
  omega

theorem blit_body_eq (column : List Nat) (h i j : Nat) (pixels : List Nat) :
    blit_body column h i j pixels =
      if blit_row h j < 0 ∨ blit_row h j ≥ to_int win_h then some pixels
      else
        match column[j]? with
        | none => none
        | some color =>
          put_pixel pixels
            ((to_size (to_int ((win_w / 2 + i) % 2 ^ 64 : Nat)) + to_size (blit_row h j) * win_w)
              % 2 ^ 64)
            (unpack_color color).1 (unpack_color color).2.1 (unpack_color color).2.2.1 := rfl

/-- One iteration of the blit loop on a full frame buffer: when the narrowed target row lies in
`[0, 512)` the pixel `(512 + i, row)` receives the colour of `column[j]` and nothing else
changes; otherwise the buffer is returned as it was. -/
theorem blit_body_spec (column : List Nat) (h i j : Nat) (pixels : List Nat) (color : Nat)
    (hi : i < 512) (hpix : pixels.length = 1024 * 512 * 3) (hcol : column[j]? = some color) :
    ∃ px', blit_body column h i j pixels = some px' ∧ px'.length = pixels.length ∧
      ((0 ≤ blit_row h j ∧ blit_row h j < 512) →
        ∀ m k, k < 3 → px'[m * 3 + k]? =
          if m = (512 + i) + (blit_row h j).toNat * 1024 then
            some (rgb_channel (unpack_color color).1 (unpack_color color).2.1
              (unpack_color color).2.2.1 k)
          else pixels[m * 3 + k]?) ∧
      (¬ (0 ≤ blit_row h j ∧ blit_row h j < 512) → px' = pixels) := by
  have hww : win_w = 1024 := rfl
  have hwh : to_int ((win_h : Nat) : Int) = 512 := by decide
  have hx : to_int (((win_w / 2 + i) % 2 ^ 64 : Nat) : Int) = ((512 + i : Nat) : Int) := by
    have : win_w / 2 = 512 := rfl
    rw [this, Nat.mod_eq_of_lt (by omega), to_int_natCast _ (by omega)]
  rw [blit_body_eq, hx, hwh, hcol]
  by_cases hr : 0 ≤ blit_row h j ∧ blit_row h j < 512
  · obtain ⟨r, hr'⟩ : ∃ r : Nat, blit_row h j = r := ⟨(blit_row h j).toNat, by omega⟩
    rw [hr'] at hr ⊢
    have hrlt : r < 512 := by omega
    rw [if_neg (by omega)]
    simp only []
    rw [to_size_natCast _ (by omega), to_size_natCast _ (by omega), hww,
      Nat.mod_eq_of_lt (by omega)]
    obtain ⟨px', hput, hl, hpx'⟩ := put_pixel_spec pixels (512 + i + r * 1024)
      (unpack_color color).1 (unpack_color color).2.1 (unpack_color color).2.2.1
      (by omega) (by omega)
    refine ⟨px', hput, hl, fun _ m k hk => ?_, fun hn => absurd hr hn⟩
    rw [hpx' m k hk, Int.toNat_ofNat]
  · rw [if_pos (by omega)]
    exact ⟨pixels, rfl, rfl, fun hc => absurd hc hr, fun _ => rfl⟩

/-- The whole blit loop on a full frame buffer returns, keeps the length and changes no pixel
outside frame column `512 + i`. -/
theorem blit_loop_total (column : List Nat) (h i : Nat) (pixels : List Nat)
    (hi : i < 512) (hpix : pixels.length = 1024 * 512 * 3) (hlen : column.length = h) :
    ∃ res, forLoop h (blit_body column h i) pixels = some res ∧
      res.length = pixels.length ∧
      ∀ m k, k < 3 → m % 1024 ≠ 512 + i → res[m * 3 + k]? = pixels[m * 3 + k]? := by
  apply forLoop_inv h (blit_body column h i) pixels
    (fun _ px => px.length = pixels.length ∧
      ∀ m k, k < 3 → m % 1024 ≠ 512 + i → px[m * 3 + k]? = pixels[m * 3 + k]?)
  · exact ⟨rfl, fun _ _ _ _ => rfl⟩
  · rintro j px hj ⟨hl, hkeep⟩
    obtain ⟨color, hcol⟩ : ∃ color, column[j]? = some color :=
      ⟨_, List.getElem?_eq_getElem (by omega)⟩
    obtain ⟨px', hrun, hl', hin, hout⟩ :=
      blit_body_spec column h i j px color hi (hl.trans hpix) hcol
    refine ⟨px', hrun, hl'.trans hl, fun m k hk hm => ?_⟩
    by_cases hr : 0 ≤ blit_row h j ∧ blit_row h j < 512
    · obtain ⟨r, hr'⟩ : ∃ r : Nat, blit_row h j = r := ⟨(blit_row h j).toNat, by omega⟩
      rw [hin hr m k hk, hr', Int.toNat_ofNat, if_neg (by omega)]
      exact hkeep m k hk hm
    · rw [hout hr]
      exact hkeep m k hk hm
/-- C13: for every screen column `i < 512`, every column height `h` that `main` can compute
(at most `102400` by `column_height_le`; the statement needs `h <= 2^33 - 512`) and every
texture row `j < h`, the blit computes the target row `j + 256 - floor(h/2)` in wrapping
`size_t` arithmetic narrowed to `int`; that narrowed row lies in `[0, 512)` exactly when the
integer `j + 256 - floor(h/2)` does and then equals it.  The colour of `column[j]` is written
to frame pixel `(512 + i, j + 256 - floor(h/2))` exactly when `0 <= j + 256 - floor(h/2) <
512`, no other pixel is written and no write leaves the buffer; a column of 512 rows or more
is clipped symmetrically, to the texture rows `floor(h/2) - 256 <= j < floor(h/2) + 256`. -/
theorem blit_clipping (i h j : Nat) (column pixels : List Nat)
    (hi : i < 512) (hj : j < h) (hlen : column.length = h)
    (hpix : pixels.length = win_w * win_h * 3) (hh : h + 512 ≤ 2 ^ 33) :
    ∃ px' color, column[j]? = some color ∧
      blit_body column h i j pixels = some px' ∧ px'.length = pixels.length ∧
      ((0 ≤ blit_row h j ∧ blit_row h j < 512) ↔
        (0 ≤ (j : Int) + 256 - (h / 2 : Nat) ∧ (j : Int) + 256 - (h / 2 : Nat) < 512)) ∧
      ((0 ≤ (j : Int) + 256 - (h / 2 : Nat) ∧ (j : Int) + 256 - (h / 2 : Nat) < 512) →
        blit_row h j = (j : Int) + 256 - (h / 2 : Nat) ∧
        ∀ x y k : Nat, x < 1024 → y < 512 → k < 3 →
          px'[(x + y * 1024) * 3 + k]? =
            if x = 512 + i ∧ (y : Int) = (j : Int) + 256 - (h / 2 : Nat) then
              some (rgb_channel (unpack_color color).1 (unpack_color color).2.1
                (unpack_color color).2.2.1 k)
            else pixels[(x + y * 1024) * 3 + k]?) ∧
      (¬ (0 ≤ (j : Int) + 256 - (h / 2 : Nat) ∧ (j : Int) + 256 - (h / 2 : Nat) < 512) →
        px' = pixels) ∧
      (512 ≤ h →
        ((0 ≤ (j : Int) + 256 - (h / 2 : Nat) ∧ (j : Int) + 256 - (h / 2 : Nat) < 512) ↔
          (h / 2 - 256 ≤ j ∧ j < h / 2 + 256))) := by
  replace hpix : pixels.length = 1024 * 512 * 3 := hpix
  obtain ⟨color, hcol⟩ : ∃ color, column[j]? = some color :=
    ⟨_, List.getElem?_eq_getElem (by omega)⟩
  obtain ⟨px', hrun, hl, hin, hout⟩ := blit_body_spec column h i j pixels color hi hpix hcol
  obtain ⟨hiff, heq⟩ := blit_row_exact h j hj hh
  refine ⟨px', color, hcol, hrun, hl, hiff, ?_, fun hn => hout (fun hr => hn (hiff.mp hr)),
    fun h512 => by omega⟩
  intro hz
  have hrow := heq hz.1 hz.2
  refine ⟨hrow, ?_⟩
  intro x y k hx hy hk
  have hr := hiff.mpr hz
  obtain ⟨r, hr'⟩ := Int.eq_ofNat_of_zero_le hr.1
  rw [hin hr (x + y * 1024) k hk, ← hrow, hr', Int.toNat_ofNat]
  by_cases hc : x = 512 + i ∧ (y : Int) = (r : Int)
  · rw [if_pos hc, if_pos (by omega)]
  · rw [if_neg hc, if_neg (by omega)]

theorem blit_clipping_witness :
    ∃ px' color, (List.replicate 1000 7)[300]? = some color ∧
      blit_body (List.replicate 1000 7) 1000 5 300 (List.replicate (win_w * win_h * 3) 255)
        = some px' ∧
      px'.length = (List.replicate (win_w * win_h * 3) 255).length ∧
      ((0 ≤ blit_row 1000 300 ∧ blit_row 1000 300 < 512) ↔
        (0 ≤ ((300 : Nat) : Int) + 256 - ((1000 / 2 : Nat) : Int) ∧
          ((300 : Nat) : Int) + 256 - ((1000 / 2 : Nat) : Int) < 512)) ∧
      ((0 ≤ ((300 : Nat) : Int) + 256 - ((1000 / 2 : Nat) : Int) ∧
          ((300 : Nat) : Int) + 256 - ((1000 / 2 : Nat) : Int) < 512) →
        blit_row 1000 300 = ((300 : Nat) : Int) + 256 - ((1000 / 2 : Nat) : Int) ∧
        ∀ x y k : Nat, x < 1024 → y < 512 → k < 3 →
          px'[(x + y * 1024) * 3 + k]? =
            if x = 512 + 5 ∧
                (y : Int) = ((300 : Nat) : Int) + 256 - ((1000 / 2 : Nat) : Int) then
              some (rgb_channel (unpack_color color).1 (unpack_color color).2.1
                (unpack_color color).2.2.1 k)
            else (List.replicate (win_w * win_h * 3) 255)[(x + y * 1024) * 3 + k]?) ∧
      (¬ (0 ≤ ((300 : Nat) : Int) + 256 - ((1000 / 2 : Nat) : Int) ∧
          ((300 : Nat) : Int) + 256 - ((1000 / 2 : Nat) : Int) < 512) →
        px' = List.replicate (win_w * win_h * 3) 255) ∧
      (512 ≤ 1000 →
        ((0 ≤ ((300 : Nat) : Int) + 256 - ((1000 / 2 : Nat) : Int) ∧
            ((300 : Nat) : Int) + 256 - ((1000 / 2 : Nat) : Int) < 512) ↔
          (1000 / 2 - 256 ≤ 300 ∧ 300 < 1000 / 2 + 256))) :=
  blit_clipping 5 1000 300 (List.replicate 1000 7) (List.replicate (win_w * win_h * 3) 255)
    (by decide) (by decide) (List.length_replicate _ _) (List.length_replicate _ _)
    (by decide)

/-- One iteration of the march at a sample that lies inside the map, in a cell with character
`c`: the cone pixel is painted in the left half of the frame; then a wall character leads to
the column of that hit and `break`, a space to the next iteration. -/
theorem march_step_cell (cos sin : ℚ → ℚ) (mp : List Char) (walltext : List Nat)
    (S N : Nat) (player_x player_y player_a angle : ℚ) (i fuel : Nat) (t : ℚ) (c : Char)
    (px : List Nat) (hpx : px.length = 1024 * 512 * 3) (ht : t < 20)
    (hs : sample_cell cos sin mp player_x player_y angle t c) :
    ∃ px', march cos sin mp walltext S N player_x player_y player_a angle i (fuel + 1) t px
        = (if c ≠ ' ' then
            (draw_column walltext S N c t (cos (angle - player_a))
              (player_x + t * cos angle) (player_y + t * sin angle) i px').bind
              fun res => some (res, some ⟨t, player_x + t * cos angle,
                player_y + t * sin angle, texid_of c⟩)
          else march cos sin mp walltext S N player_x player_y player_a angle i fuel
            (t + 1 / 100) px') ∧
      px'.length = px.length ∧
      ∀ m k, k < 3 → 512 ≤ m % 1024 → px'[m * 3 + k]? = px[m * 3 + k]? := by
  obtain ⟨hx0, hx1, hy0, hy1, hcell⟩ := hs
  have hrw : ((rect_w : Nat) : ℚ) = 32 := by norm_num [rect_w, win_w, map_w]
  have hrh : ((rect_h : Nat) : ℚ) = 32 := by norm_num [rect_h, win_h, map_h]
  obtain ⟨hpx1, hpx2⟩ := float_to_int_floor ((player_x + t * cos angle) * 32) 512
    (by positivity) (by push_cast; linarith) (by norm_num)
  obtain ⟨hpy1, hpy2⟩ := float_to_int_floor ((player_y + t * sin angle) * 32) 512
    (by positivity) (by push_cast; linarith) (by norm_num)
  obtain ⟨hcx1, hcx2⟩ := float_to_int_floor (player_x + t * cos angle) 16
    hx0 (by push_cast; linarith) (by norm_num)
  obtain ⟨hcy1, hcy2⟩ := float_to_int_floor (player_y + t * sin angle) 16
    hy0 (by push_cast; linarith) (by norm_num)
  generalize ⌊(player_x + t * cos angle) * 32⌋.toNat = zx at hpx1 hpx2
  generalize ⌊(player_y + t * sin angle) * 32⌋.toNat = zy at hpy1 hpy2
  generalize ⌊player_x + t * cos angle⌋.toNat = ix at hcx1 hcx2 hcell
  generalize ⌊player_y + t * sin angle⌋.toNat = iy at hcy1 hcy2 hcell
  have ep : (to_size (zx : Int) + to_size (zy : Int) * win_w) % 2 ^ 64 = zx + zy * 1024 := by
    rw [to_size_natCast zx (by omega), to_size_natCast zy (by omega)]
    have : win_w = 1024 := rfl
    rw [this]; omega
  have ei : (to_size (ix : Int) + to_size (iy : Int) * map_w) % 2 ^ 64 = ix + iy * 16 := by
    rw [to_size_natCast ix (by omega), to_size_natCast iy (by omega)]
    have : map_w = 16 := rfl
    rw [this]; omega
  obtain ⟨px', hput, hl', hpx'⟩ := put_pixel_spec px (zx + zy * 1024) 160 160 160
    (by omega) (by omega)
  refine ⟨px', ?_, hl', ?_⟩
  · rw [march, if_pos ht]
    simp only [hrw, hrh, hpx1, hpy1, hcx1, hcy1, Option.some_bind, ep, ei, hput, hcell]
  · intro m k hk hm
    rw [hpx' m k hk, if_neg]
    omega

/-- The column of a hit is drawn without a fault whenever the atlas is valid, the texture id
is below the texture count and the column height is computed. -/
theorem draw_column_total (walltext : List Nat) (S N : Nat) (c : Char) (t cd cx cy : ℚ)
    (i ch : Nat) (pixels : List Nat)
    (hlen : walltext.length = N * S * S) (hbig : walltext.length < 2 ^ 64)
    (hS : 1 ≤ S) (hS31 : S < 2 ^ 31) (htex : texid_of c < N)
    (hch : column_height t cd = some ch) (hi : i < 512)
    (hpix : pixels.length = 1024 * 512 * 3) :
    ∃ res, draw_column walltext S N c t cd cx cy i pixels = some res ∧
      res.length = pixels.length ∧
      ∀ m k, k < 3 → m % 1024 ≠ 512 + i → res[m * 3 + k]? = pixels[m * 3 + k]? := by
  obtain ⟨u, hu, hu0, hu1⟩ := x_texcoord_in_range cx cy S hS hS31
  obtain ⟨un, hun⟩ := Int.eq_ofNat_of_zero_le hu0
  subst hun
  have hunS : un < S := by omega
  obtain ⟨col, hcol, hcl, -⟩ :=
    texture_column_spec walltext S N (texid_of c) un ch hlen hbig htex hunS
  obtain ⟨res, hres, hl, hkeep⟩ := blit_loop_total col ch i pixels hi hpix hcl
  refine ⟨res, ?_, hl, hkeep⟩
  unfold draw_column
  simp only [htex, if_true, hch, hu, Option.some_bind, to_size_natCast un (by omega), hcol,
    hres]
/-- The march runs through its first `K` iterations when their samples all lie inside the map
in empty cells: it arrives at distance `K / 100` with the cone pixels painted in the left half
of the frame. -/
theorem march_prefix (cos sin : ℚ → ℚ) (mp : List Char) (walltext : List Nat)
    (S N : Nat) (player_x player_y player_a angle : ℚ) (i : Nat) (px : List Nat)
    (hpx : px.length = 1024 * 512 * 3) :
    ∀ (K fuel : Nat), K ≤ 2000 →
      (∀ k : Nat, k < K →
        sample_cell cos sin mp player_x player_y angle ((k : ℚ) / 100) ' ') →
      ∃ px', march cos sin mp walltext S N player_x player_y player_a angle i (fuel + K) 0 px
          = march cos sin mp walltext S N player_x player_y player_a angle i fuel
              ((K : ℚ) / 100) px' ∧
        px'.length = px.length ∧
        ∀ m k, k < 3 → 512 ≤ m % 1024 → px'[m * 3 + k]? = px[m * 3 + k]? := by
  intro K
  induction K with
  | zero =>
    intro fuel _ _
    refine ⟨px, ?_, rfl, fun _ _ _ _ => rfl⟩
    simp
  | succ K ih =>
    intro fuel hK hs
    obtain ⟨px1, hrun, hl1, hkeep1⟩ := ih (fuel + 1) (by omega)
      (fun k hk => hs k (by omega))
    have ht : (K : ℚ) / 100 < 20 := by
      have : (K : ℚ) < 2000 := by exact_mod_cast (show K < 2000 by omega)
      linarith
    obtain ⟨px2, hstep, hl2, hkeep2⟩ := march_step_cell cos sin mp walltext S N player_x
      player_y player_a angle i fuel ((K : ℚ) / 100) ' ' px1 (hl1.trans hpx) ht
      (hs K (by omega))
    rw [if_neg (by simp)] at hstep
    have hnext : (K : ℚ) / 100 + 1 / 100 = ((K + 1 : Nat) : ℚ) / 100 := by
      push_cast; ring
    rw [hnext] at hstep
    have hfuel : fuel + (K + 1) = fuel + 1 + K := by omega
    refine ⟨px2, ?_, hl2.trans hl1, fun m k hk hm => ?_⟩
    · rw [hfuel, hrun, hstep]
    · rw [hkeep2 m k hk hm, hkeep1 m k hk hm]

/-- A hit reported by the march started at distance `t` has travelled distance at least
`t`. -/
theorem march_hit_ge (cos sin : ℚ → ℚ) (mp : List Char) (walltext : List Nat)
    (S N : Nat) (player_x player_y player_a angle : ℚ) (i : Nat) :
    ∀ (fuel : Nat) (t : ℚ) (px res : List Nat) (hit : Hit),
      march cos sin mp walltext S N player_x player_y player_a angle i fuel t px
        = some (res, some hit) → t ≤ hit.t := by
  intro fuel
  induction fuel with
  | zero =>
    intro t px res hit h
    rw [march] at h
    cases h
  | succ fuel ih =>
    intro t px res hit h
    rw [march] at h
    split_ifs at h with ht
    · obtain ⟨pix_x, -, h⟩ := Option.bind_eq_some.mp h
      obtain ⟨pix_y, -, h⟩ := Option.bind_eq_some.mp h
      obtain ⟨px1, -, h⟩ := Option.bind_eq_some.mp h
      obtain ⟨icx, -, h⟩ := Option.bind_eq_some.mp h
      obtain ⟨icy, -, h⟩ := Option.bind_eq_some.mp h
      cases hc : mp[(to_size icx + to_size icy * map_w) % 2 ^ 64]? with
      | none => rw [hc] at h; cases h
      | some c =>
        rw [hc] at h
        simp only at h
        split_ifs at h with hw
        · obtain ⟨r, -, h⟩ := Option.bind_eq_some.mp h
          simp only [Option.some.injEq, Prod.mk.injEq] at h
          obtain ⟨-, hh⟩ := h
          rw [← hh]
        · have := ih (t + 1 / 100) px1 res hit h
          linarith
    · simp only [Option.some.injEq, Prod.mk.injEq] at h
      exact absurd h.2 (by simp)

theorem sample_empty_iff (cos sin : ℚ → ℚ) (mp : List Char) (player_x player_y angle t : ℚ) :
    sample_empty cos sin mp player_x player_y angle t
      ↔ sample_cell cos sin mp player_x player_y angle t ' ' := Iff.rfl

theorem ray_angle_centre (player_a : ℚ) : ray_angle player_a 256 = player_a := by
  have hw : ((win_w / 2 : Nat) : ℚ) = 512 := by norm_num [win_w]
  unfold ray_angle
  rw [hw]
  push_cast
  ring

set_option maxRecDepth 100000 in
theorem map_column_three :
    (∀ r, r < 13 → 2 ≤ r → map[3 + r * 16]? = some ' ') ∧ map[3 + 13 * 16]? = some '0' := by
  decide

/-- The cells crossed by the straight line from `(3.456, 2.345)` in a direction `(c, s)` close
to `(cos 1.523, sin 1.523)`: every point before the line reaches `y = 13` lies in an empty
cell of column 3, and the points with `13 <= y < 13.5` lie in the wall cell `(3, 13)`. -/
theorem centre_line_cells (cos sin : ℚ → ℚ) (angle : ℚ)
    (hc : 0 ≤ cos angle ∧ cos angle ≤ 479 / 10000)
    (hs : 9986 / 10000 ≤ sin angle ∧ sin angle ≤ 9995 / 10000) (τ : ℚ) (hτ : 0 ≤ τ) :
    (2345 / 1000 + τ * sin angle < 13 →
      sample_cell cos sin map (3456 / 1000) (2345 / 1000) angle τ ' ') ∧
    (13 ≤ 2345 / 1000 + τ * sin angle → 2345 / 1000 + τ * sin angle < 27 / 2 →
      sample_cell cos sin map (3456 / 1000) (2345 / 1000) angle τ '0') := by
  obtain ⟨hc0, hc1⟩ := hc
  obtain ⟨hs0, hs1⟩ := hs
  unfold sample_cell
  generalize cos angle = c at hc0 hc1 ⊢
  generalize sin angle = s at hs0 hs1 ⊢
  have hτs : τ * (9986 / 10000) ≤ τ * s := mul_le_mul_of_nonneg_left hs0 hτ
  have hτc0 : 0 ≤ τ * c := mul_nonneg hτ hc0
  have hτc1 : τ * c ≤ τ * (479 / 10000) := mul_le_mul_of_nonneg_left hc1 hτ
  have hτs0 : 0 ≤ τ * s := mul_nonneg hτ (by linarith)
  have hx : ∀ (_ : 2345 / 1000 + τ * s < 27 / 2), ⌊3456 / 1000 + τ * c⌋ = 3 := by
    intro hy
    rw [Int.floor_eq_iff]
    constructor
    · push_cast; linarith
    · push_cast; linarith
  constructor
  · intro hy
    have hfx := hx (by linarith)
    have hy2 : (2 : Int) ≤ ⌊2345 / 1000 + τ * s⌋ := Int.le_floor.mpr (by push_cast; linarith)
    have hy12 : ⌊2345 / 1000 + τ * s⌋ < 13 := Int.floor_lt.mpr (by push_cast; linarith)
    obtain ⟨r, hr⟩ := Int.eq_ofNat_of_zero_le (show (0 : Int) ≤ ⌊2345 / 1000 + τ * s⌋ by omega)
    refine ⟨by linarith, by linarith, by linarith, by linarith, ?_⟩
    rw [hfx, hr]
    exact map_column_three.1 r (by omega) (by omega)
  · intro hy13 hy14
    have hfx := hx hy14
    have hfy : ⌊2345 / 1000 + τ * s⌋ = 13 := by
      rw [Int.floor_eq_iff]
      constructor
      · push_cast; linarith
      · push_cast; linarith
    refine ⟨by linarith, by linarith, by linarith, by linarith, ?_⟩
    rw [hfx, hfy]
    exact map_column_three.2
theorem column_height_exists (t cd : ℚ) (B : Nat) (hpos : 0 < t * cd)
    (hbd : (512 : ℚ) / (t * cd) < B) (hB : B ≤ 2 ^ 64) :
    ∃ ch, column_height t cd = some ch ∧ ch < B := by
  have hq : (0 : ℚ) ≤ 512 / (t * cd) := by positivity
  have hf0 : (0 : Int) ≤ ⌊(512 : ℚ) / (t * cd)⌋ := Int.floor_nonneg.mpr hq
  have hf1 : ⌊(512 : ℚ) / (t * cd)⌋ < (B : Int) := Int.floor_lt.mpr (by exact_mod_cast hbd)
  obtain ⟨n, hn⟩ := Int.eq_ofNat_of_zero_le hf0
  exact ⟨n, column_height_of_floor t cd n hpos hn (by omega), by omega⟩

/-- The centre ray of the camera `(3.456, 2.345)` facing `1.523` in the built-in map: for every
`cos` and `sin` whose values bracket the true ones, the march runs 1067 iterations through
empty cells of column 3 and hits the wall cell `(3, 13)` at distance `10.67`. -/
theorem centre_ray_hit (cos sin : ℚ → ℚ) (walltext : List Nat) (S N : Nat)
    (pixels : List Nat)
    (hc : 0 ≤ cos (1523 / 1000) ∧ cos (1523 / 1000) ≤ 479 / 10000)
    (hs : 9986 / 10000 ≤ sin (1523 / 1000) ∧ sin (1523 / 1000) ≤ 9995 / 10000)
    (hc0 : 9 / 10 ≤ cos 0 ∧ cos 0 ≤ 1)
    (hlen : walltext.length = N * S * S) (hbig : walltext.length < 2 ^ 64)
    (hS : 1 ≤ S) (hS31 : S < 2 ^ 31) (hN : 1 ≤ N)
    (hpix : pixels.length = 1024 * 512 * 3) :
    ∃ res ch, cast_ray cos sin map walltext S N (3456 / 1000) (2345 / 1000) (1523 / 1000) 256
        pixels = some (res, some ⟨1067 / 100, 3456 / 1000 + 1067 / 100 * cos (1523 / 1000),
          2345 / 1000 + 1067 / 100 * sin (1523 / 1000), texid_of '0'⟩) ∧
      column_height (1067 / 100) (cos 0) = some ch ∧ ch < 54 ∧
      res.length = pixels.length := by
  have hprefix := march_prefix cos sin map walltext S N (3456 / 1000) (2345 / 1000)
    (1523 / 1000) (1523 / 1000) 256 pixels hpix 1067 934 (by norm_num) (by
      intro k hk
      have hk' : (k : ℚ) ≤ 1066 := by exact_mod_cast Nat.le_of_lt_succ hk
      have hk0 : (0 : ℚ) ≤ (k : ℚ) / 100 := by positivity
      have hmul : (k : ℚ) / 100 * sin (1523 / 1000) ≤ (k : ℚ) / 100 * (9995 / 10000) :=
        mul_le_mul_of_nonneg_left hs.2 hk0
      exact (centre_line_cells cos sin (1523 / 1000) hc hs _ hk0).1 (by linarith))
  obtain ⟨px1, hrun1, hl1, -⟩ := hprefix
  have ht : ((1067 : Nat) : ℚ) / 100 = 1067 / 100 := by norm_num
  rw [ht] at hrun1
  have hmul : (1067 : ℚ) / 100 * (9986 / 10000) ≤ 1067 / 100 * sin (1523 / 1000) :=
    mul_le_mul_of_nonneg_left hs.1 (by norm_num)
  have hmul' : (1067 : ℚ) / 100 * sin (1523 / 1000) ≤ 1067 / 100 * (9995 / 10000) :=
    mul_le_mul_of_nonneg_left hs.2 (by norm_num)
  obtain ⟨px2, hrun2, hl2, -⟩ := march_step_cell cos sin map walltext S N (3456 / 1000)
    (2345 / 1000) (1523 / 1000) (1523 / 1000) 256 933 (1067 / 100) '0' px1 (hl1.trans hpix)
    (by norm_num)
    ((centre_line_cells cos sin (1523 / 1000) hc hs _ (by norm_num)).2
      (by linarith) (by linarith))
  rw [if_pos (by decide), sub_self] at hrun2
  obtain ⟨ch, hch, hch54⟩ := column_height_exists (1067 / 100) (cos 0) 54
    (by linarith [hc0.1]) (by
      rw [div_lt_iff₀ (by linarith [hc0.1])]
      linarith [hc0.1]) (by norm_num)
  obtain ⟨res, hres, hl3, -⟩ := draw_column_total walltext S N '0' (1067 / 100) (cos 0)
    (3456 / 1000 + 1067 / 100 * cos (1523 / 1000))
    (2345 / 1000 + 1067 / 100 * sin (1523 / 1000)) 256 ch px2 hlen hbig hS hS31
    (by have : texid_of '0' = 0 := by decide
        omega)
    hch (by norm_num) (hl2.trans (hl1.trans hpix))
  refine ⟨res, ch, ?_, hch, hch54, hl3.trans (hl2.trans hl1)⟩
  unfold cast_ray
  rw [ray_angle_centre]
  have h2001 : march cos sin map walltext S N (3456 / 1000) (2345 / 1000) (1523 / 1000)
      (1523 / 1000) 256 2001 0 pixels
      = march cos sin map walltext S N (3456 / 1000) (2345 / 1000) (1523 / 1000)
        (1523 / 1000) 256 (934 + 1067) 0 pixels := rfl
  have h934 : march cos sin map walltext S N (3456 / 1000) (2345 / 1000) (1523 / 1000)
      (1523 / 1000) 256 934 (1067 / 100) px1
      = march cos sin map walltext S N (3456 / 1000) (2345 / 1000) (1523 / 1000)
        (1523 / 1000) 256 (933 + 1) (1067 / 100) px1 := rfl
  rw [h2001, hrun1, h934, hrun2, hres]
  rfl
/-- C11: with the built-in map, the camera at `(3.456, 2.345)` facing `1.523` and the centre
ray (column 256, whose angle is the facing angle), for every `cos` and `sin` whose values at
`1.523` and `0` bracket the true ones: the straight line from the camera lies in empty cells
until it enters the wall cell `(3, 13)`, whose character is `'0'`; the march reports a hit
with the texture id of that character, and its corrected distance is `> 0` and `< 20`. -/
theorem centre_ray_scenario (cos sin : ℚ → ℚ) (walltext : List Nat) (S N : Nat)
    (pixels : List Nat)
    (hc : 0 ≤ cos (1523 / 1000) ∧ cos (1523 / 1000) ≤ 479 / 10000)
    (hs : 9986 / 10000 ≤ sin (1523 / 1000) ∧ sin (1523 / 1000) ≤ 9995 / 10000)
    (hc0 : 9 / 10 ≤ cos 0 ∧ cos 0 ≤ 1)
    (hlen : walltext.length = N * S * S) (hbig : walltext.length < 2 ^ 64)
    (hS : 1 ≤ S) (hS31 : S < 2 ^ 31) (hN : 1 ≤ N)
    (hpix : pixels.length = win_w * win_h * 3) :
    ray_angle (1523 / 1000) 256 = 1523 / 1000 ∧
    (∀ τ : ℚ, 0 ≤ τ →
      (2345 / 1000 + τ * sin (1523 / 1000) < 13 →
        sample_cell cos sin map (3456 / 1000) (2345 / 1000) (1523 / 1000) τ ' ') ∧
      (13 ≤ 2345 / 1000 + τ * sin (1523 / 1000) →
        2345 / 1000 + τ * sin (1523 / 1000) < 27 / 2 →
        sample_cell cos sin map (3456 / 1000) (2345 / 1000) (1523 / 1000) τ '0')) ∧
    ∃ res hit, cast_ray cos sin map walltext S N (3456 / 1000) (2345 / 1000) (1523 / 1000)
        256 pixels = some (res, some hit) ∧
      hit.texid = texid_of '0' ∧
      0 < hit.t * cos (ray_angle (1523 / 1000) 256 - 1523 / 1000) ∧
      hit.t * cos (ray_angle (1523 / 1000) 256 - 1523 / 1000) < 20 := by
  refine ⟨ray_angle_centre _, fun τ hτ => centre_line_cells cos sin _ hc hs τ hτ, ?_⟩
  obtain ⟨res, ch, hrun, -, -, -⟩ := centre_ray_hit cos sin walltext S N pixels hc hs hc0
    hlen hbig hS hS31 hN hpix
  refine ⟨res, _, hrun, rfl, ?_, ?_⟩
  · rw [ray_angle_centre, sub_self]
    show (0 : ℚ) < 1067 / 100 * cos 0
    linarith [hc0.1]
  · rw [ray_angle_centre, sub_self]
    show (1067 : ℚ) / 100 * cos 0 < 20
    linarith [hc0.2]

theorem centre_ray_scenario_witness :
    ray_angle (1523 / 1000) 256 = 1523 / 1000 ∧
    (∀ τ : ℚ, 0 ≤ τ →
      (2345 / 1000 + τ * (fun _ => (9989 / 10000 : ℚ)) (1523 / 1000) < 13 →
        sample_cell (fun x => if x = 0 then 1 else 478 / 10000) (fun _ => 9989 / 10000) map
          (3456 / 1000) (2345 / 1000) (1523 / 1000) τ ' ') ∧
      (13 ≤ 2345 / 1000 + τ * (fun _ => (9989 / 10000 : ℚ)) (1523 / 1000) →
        2345 / 1000 + τ * (fun _ => (9989 / 10000 : ℚ)) (1523 / 1000) < 27 / 2 →
        sample_cell (fun x => if x = 0 then 1 else 478 / 10000) (fun _ => 9989 / 10000) map
          (3456 / 1000) (2345 / 1000) (1523 / 1000) τ '0')) ∧
    ∃ res hit, cast_ray (fun x => if x = 0 then 1 else 478 / 10000) (fun _ => 9989 / 10000)
        map [10, 11, 12, 13, 14, 15] 1 6 (3456 / 1000) (2345 / 1000) (1523 / 1000)
        256 (List.replicate (win_w * win_h * 3) 255) = some (res, some hit) ∧
      hit.texid = texid_of '0' ∧
      0 < hit.t * (fun x => if x = 0 then (1 : ℚ) else 478 / 10000)
        (ray_angle (1523 / 1000) 256 - 1523 / 1000) ∧
      hit.t * (fun x => if x = 0 then (1 : ℚ) else 478 / 10000)
        (ray_angle (1523 / 1000) 256 - 1523 / 1000) < 20 :=
  centre_ray_scenario (fun x => if x = 0 then 1 else 478 / 10000) (fun _ => 9989 / 10000)
    [10, 11, 12, 13, 14, 15] 1 6 (List.replicate (win_w * win_h * 3) 255)
    (by norm_num) (by norm_num) (by norm_num) (by decide) (by decide) (by decide)
    (by decide) (by decide) (List.length_replicate _ _)

/-- The true cosine and sine satisfy the brackets that the centre-ray scenario assumes of the
parameters `cos` and `sin`. -/
theorem real_cos_sin_brackets :
    0 ≤ Real.cos (1523 / 1000) ∧ Real.cos (1523 / 1000) ≤ 479 / 10000 ∧
    9986 / 10000 ≤ Real.sin (1523 / 1000) ∧ Real.sin (1523 / 1000) ≤ 9995 / 10000 ∧
    Real.cos 0 = 1 := by
  have hpi1 := Real.pi_gt_d6
  have hpi2 := Real.pi_lt_d6
  have hx0 : (47796 : ℝ) / 1000000 ≤ Real.pi / 2 - 1523 / 1000 := by linarith
  have hx1 : Real.pi / 2 - 1523 / 1000 ≤ 47797 / 1000000 := by linarith
  have hc : Real.cos (1523 / 1000) = Real.sin (Real.pi / 2 - 1523 / 1000) :=
    (Real.sin_pi_div_two_sub _).symm
  have hs : Real.sin (1523 / 1000) = Real.cos (Real.pi / 2 - 1523 / 1000) :=
    (Real.cos_pi_div_two_sub _).symm
  generalize Real.pi / 2 - 1523 / 1000 = x at hx0 hx1 hc hs
  have hxpos : 0 ≤ x := by linarith
  have hxpi : x ≤ Real.pi := by linarith
  have hsin0 := Real.sin_nonneg_of_nonneg_of_le_pi hxpos hxpi
  have hsin1 := Real.sin_le hxpos
  have hcos0 := Real.one_sub_sq_div_two_le_cos (x := x)
  have habs : |x| ≤ 1 := by rw [abs_of_nonneg hxpos]; linarith
  have hcb := Real.cos_bound habs
  rw [abs_of_nonneg hxpos] at hcb
  have hcb' := (abs_le.mp hcb).2
  have hx2 : x ^ 2 ≤ (47797 / 1000000) ^ 2 := pow_le_pow_left₀ hxpos hx1 2
  have hx2' : (47796 / 1000000 : ℝ) ^ 2 ≤ x ^ 2 := pow_le_pow_left₀ (by norm_num) hx0 2
  have hx4 : x ^ 4 ≤ (47797 / 1000000) ^ 4 := pow_le_pow_left₀ hxpos hx1 4
  refine ⟨by rw [hc]; exact hsin0, by rw [hc]; linarith, ?_, ?_, Real.cos_zero⟩
  · rw [hs]; norm_num at hx2 ⊢; linarith
  · rw [hs]; norm_num at hx2' hx4 ⊢; linarith

theorem ray_angle_offset (player_a : ℚ) (i : Nat) (hi : i < 512) :
    |ray_angle player_a i - player_a| ≤ fov / 2 := by
  have hw : ((win_w / 2 : Nat) : ℚ) = 512 := by norm_num [win_w]
  have hfov : (0 : ℚ) < fov := by norm_num [fov]
  have hi0 : (0 : ℚ) ≤ i := Nat.cast_nonneg i
  have hi1 : (i : ℚ) ≤ 512 := by exact_mod_cast hi.le
  have h0 : 0 ≤ fov * i / 512 := by positivity
  have h1 : fov * i / 512 ≤ fov := by
    rw [div_le_iff₀ (by norm_num)]
    nlinarith
  unfold ray_angle
  rw [hw, abs_le]
  constructor <;> linarith

set_option maxRecDepth 100000 in
theorem map_border_cells : ∀ i, i < 16 → ∀ j, j < 16 → (i = 0 ∨ i = 15 ∨ j = 0 ∨ j = 15) →
    (map[i + j * 16]? ≠ some ' ' ∧ map[i + j * 16]? ≠ none) := by
  decide

/-- A sample that lies in an empty cell of the built-in map lies in an interior cell, because
the border cells are walls. -/
theorem empty_sample_interior (cos sin : ℚ → ℚ) (player_x player_y angle t : ℚ)
    (hs : sample_cell cos sin map player_x player_y angle t ' ') :
    1 ≤ player_x + t * cos angle ∧ player_x + t * cos angle < 15 ∧
    1 ≤ player_y + t * sin angle ∧ player_y + t * sin angle < 15 := by
  unfold sample_cell at hs
  obtain ⟨hx0, hx1, hy0, hy1, hcell⟩ := hs
  generalize player_x + t * cos angle = x at hx0 hx1 hcell ⊢
  generalize player_y + t * sin angle = y at hy0 hy1 hcell ⊢
  have hfx0 : (0 : Int) ≤ ⌊x⌋ := Int.floor_nonneg.mpr hx0
  have hfy0 : (0 : Int) ≤ ⌊y⌋ := Int.floor_nonneg.mpr hy0
  have hfx1 : ⌊x⌋ < 16 := Int.floor_lt.mpr (by push_cast; exact hx1)
  have hfy1 : ⌊y⌋ < 16 := Int.floor_lt.mpr (by push_cast; exact hy1)
  obtain ⟨a, ha⟩ := Int.eq_ofNat_of_zero_le hfx0
  obtain ⟨b, hb⟩ := Int.eq_ofNat_of_zero_le hfy0
  rw [ha, hb] at hcell
  simp only [Int.toNat_ofNat] at hcell
  have hborder : ¬ (a = 0 ∨ a = 15 ∨ b = 0 ∨ b = 15) := fun hbd =>
    (map_border_cells a (by omega) b (by omega) hbd).1 hcell
  have ha1 : (1 : Int) ≤ ⌊x⌋ := by omega
  have ha14 : ⌊x⌋ < 15 := by omega
  have hb1 : (1 : Int) ≤ ⌊y⌋ := by omega
  have hb14 : ⌊y⌋ < 15 := by omega
  refine ⟨?_, ?_, ?_, ?_⟩
  · exact_mod_cast Int.le_floor.mp ha1
  · exact_mod_cast Int.floor_lt.mp ha14
  · exact_mod_cast Int.le_floor.mp hb1
  · exact_mod_cast Int.floor_lt.mp hb14

/-- A point inside the map lies in a cell of the array `map`. -/
theorem in_map_cell (cos sin : ℚ → ℚ) (player_x player_y angle t : ℚ)
    (hin : 0 ≤ player_x + t * cos angle ∧ player_x + t * cos angle < 16 ∧
      0 ≤ player_y + t * sin angle ∧ player_y + t * sin angle < 16) :
    ⌊player_x + t * cos angle⌋.toNat + ⌊player_y + t * sin angle⌋.toNat * 16 < 256 ∧
    ∃ c, sample_cell cos sin map player_x player_y angle t c := by
  obtain ⟨hx0, hx1, hy0, hy1⟩ := hin
  have hfx0 : (0 : Int) ≤ ⌊player_x + t * cos angle⌋ := Int.floor_nonneg.mpr hx0
  have hfy0 : (0 : Int) ≤ ⌊player_y + t * sin angle⌋ := Int.floor_nonneg.mpr hy0
  have hfx1 : ⌊player_x + t * cos angle⌋ < 16 := Int.floor_lt.mpr (by push_cast; exact hx1)
  have hfy1 : ⌊player_y + t * sin angle⌋ < 16 := Int.floor_lt.mpr (by push_cast; exact hy1)
  have hidx : ⌊player_x + t * cos angle⌋.toNat + ⌊player_y + t * sin angle⌋.toNat * 16
      < 256 := by omega
  refine ⟨hidx, ?_⟩
  obtain ⟨c, hc⟩ : ∃ c, map[⌊player_x + t * cos angle⌋.toNat
      + ⌊player_y + t * sin angle⌋.toNat * 16]? = some c :=
    ⟨_, List.getElem?_eq_getElem (by rw [map_length]; omega)⟩
  exact ⟨c, hx0, hx1, hy0, hy1, hc⟩

/-- While no sample has met a wall, the samples of a march that starts in an interior cell and
moves by less than one grid unit per step stay inside the map, in empty cells. -/
theorem march_samples_in_map (cos sin : ℚ → ℚ) (player_x player_y angle : ℚ)
    (hcam : 1 ≤ player_x ∧ player_x < 15 ∧ 1 ≤ player_y ∧ player_y < 15)
    (hdx : |cos angle| * (1 / 100) < 1) (hdy : |sin angle| * (1 / 100) < 1) :
    ∀ K : Nat,
      (∀ k : Nat, k < K → ∀ c,
        sample_cell cos sin map player_x player_y angle ((k : ℚ) / 100) c → c = ' ') →
      (0 ≤ player_x + (K : ℚ) / 100 * cos angle ∧ player_x + (K : ℚ) / 100 * cos angle < 16 ∧
        0 ≤ player_y + (K : ℚ) / 100 * sin angle ∧
        player_y + (K : ℚ) / 100 * sin angle < 16) ∧
      ∀ k : Nat, k < K →
        sample_cell cos sin map player_x player_y angle ((k : ℚ) / 100) ' ' := by
  have hcx := abs_le.mp (le_of_lt (show |cos angle * (1 / 100)| < 1 by
    rw [abs_mul, abs_of_pos (by norm_num : (0 : ℚ) < 1 / 100)]; exact hdx))
  have hcy := abs_le.mp (le_of_lt (show |sin angle * (1 / 100)| < 1 by
    rw [abs_mul, abs_of_pos (by norm_num : (0 : ℚ) < 1 / 100)]; exact hdy))
  intro K
  induction K with
  | zero =>
    intro _
    refine ⟨?_, fun k hk => absurd hk (Nat.not_lt_zero k)⟩
    simp only [Nat.cast_zero, zero_div, zero_mul, add_zero]
    obtain ⟨h1, h2, h3, h4⟩ := hcam
    exact ⟨by linarith, by linarith, by linarith, by linarith⟩
  | succ K ih =>
    intro hno
    obtain ⟨hin, hprev⟩ := ih (fun k hk c hc => hno k (by omega) c hc)
    obtain ⟨-, c, hc⟩ := in_map_cell cos sin player_x player_y angle ((K : ℚ) / 100) hin
    have hsp := hno K (by omega) c hc
    subst hsp
    obtain ⟨i1, i2, i3, i4⟩ := empty_sample_interior cos sin player_x player_y angle _ hc
    have hnx : player_x + ((K + 1 : Nat) : ℚ) / 100 * cos angle
        = player_x + (K : ℚ) / 100 * cos angle + cos angle * (1 / 100) := by
      push_cast; ring
    have hny : player_y + ((K + 1 : Nat) : ℚ) / 100 * sin angle
        = player_y + (K : ℚ) / 100 * sin angle + sin angle * (1 / 100) := by
      push_cast; ring
    refine ⟨?_, fun k hk => ?_⟩
    · rw [hnx, hny]
      exact ⟨by linarith [hcx.1], by linarith [hcx.2], by linarith [hcy.1],
        by linarith [hcy.2]⟩
    · rcases Nat.lt_succ_iff_lt_or_eq.mp hk with hlt | rfl
      · exact hprev k hlt
      · exact hc
/-- A march that starts in an interior cell with a direction of length close to 1 meets a wall
cell of the built-in map within its 2000 samples, after samples that all lie in empty
cells. -/
theorem march_reaches_wall (cos sin : ℚ → ℚ) (player_x player_y angle : ℚ)
    (hcam : 1 ≤ player_x ∧ player_x < 15 ∧ 1 ≤ player_y ∧ player_y < 15)
    (hdx : |cos angle| * (1 / 100) < 1) (hdy : |sin angle| * (1 / 100) < 1)
    (hunit : 99 / 100 ≤ cos angle ^ 2 + sin angle ^ 2) :
    ∃ K : Nat, K < 2000 ∧ ∃ c, c ≠ ' ' ∧
      sample_cell cos sin map player_x player_y angle ((K : ℚ) / 100) c ∧
      ∀ k : Nat, k < K →
        sample_cell cos sin map player_x player_y angle ((k : ℚ) / 100) ' ' := by
  by_contra hnone
  have hQ : ∀ K : Nat, K ≤ 2000 → ∀ k : Nat, k < K → ∀ c,
      sample_cell cos sin map player_x player_y angle ((k : ℚ) / 100) c → c = ' ' := by
    intro K
    induction K with
    | zero => intro _ k hk; exact absurd hk (Nat.not_lt_zero k)
    | succ K ih =>
      intro hK k hk c hc
      have hQK := ih (by omega)
      rcases Nat.lt_succ_iff_lt_or_eq.mp hk with hlt | rfl
      · exact hQK k hlt c hc
      · by_contra hw
        exact hnone ⟨k, by omega, c, hw, hc,
          (march_samples_in_map cos sin player_x player_y angle hcam hdx hdy k hQK).2⟩
  have hall := (march_samples_in_map cos sin player_x player_y angle hcam hdx hdy 2000
    (hQ 2000 le_rfl)).2 1999 (by norm_num)
  obtain ⟨i1, i2, i3, i4⟩ := empty_sample_interior cos sin player_x player_y angle _ hall
  obtain ⟨c1, c2, c3, c4⟩ := hcam
  have hk : ((1999 : Nat) : ℚ) / 100 = 1999 / 100 := by norm_num
  rw [hk] at i1 i2 i3 i4
  have hx2 : (1999 / 100 * cos angle) ^ 2 < 14 ^ 2 := sq_lt_sq' (by linarith) (by linarith)
  have hy2 : (1999 / 100 * sin angle) ^ 2 < 14 ^ 2 := sq_lt_sq' (by linarith) (by linarith)
  nlinarith

theorem column_height_zero (cd : ℚ) (hcd : 0 ≤ cd) : column_height 0 cd = some 0 := by
  unfold column_height
  rw [if_pos (by ring), if_pos ⟨le_refl 0, hcd⟩]

/-- The first iteration of the march of a camera that stands in an empty cell goes on: the
ray is continued from the next sample, and every hit that it reports has travelled at least
one step. -/
theorem march_first_step_empty (cos sin : ℚ → ℚ) (mp : List Char) (walltext : List Nat)
    (S N : Nat) (player_x player_y player_a : ℚ) (i : Nat) (pixels : List Nat)
    (hpix : pixels.length = 1024 * 512 * 3)
    (hin : 0 ≤ player_x ∧ player_x < 16 ∧ 0 ≤ player_y ∧ player_y < 16)
    (hcell : mp[⌊player_x⌋.toNat + ⌊player_y⌋.toNat * 16]? = some ' ') :
    (∃ buf, cast_ray cos sin mp walltext S N player_x player_y player_a i pixels
        = march cos sin mp walltext S N player_x player_y player_a (ray_angle player_a i) i
            2000 (1 / 100) buf ∧ buf.length = pixels.length) ∧
    ∀ res hit, cast_ray cos sin mp walltext S N player_x player_y player_a i pixels
        = some (res, some hit) → 1 / 100 ≤ hit.t := by
  have hs : sample_cell cos sin mp player_x player_y (ray_angle player_a i) 0 ' ' := by
    unfold sample_cell
    simp only [zero_mul, add_zero]
    exact ⟨hin.1, hin.2.1, hin.2.2.1, hin.2.2.2, hcell⟩
  obtain ⟨buf, hstep, hl, -⟩ := march_step_cell cos sin mp walltext S N player_x player_y
    player_a (ray_angle player_a i) i 2000 0 ' ' pixels hpix (by norm_num) hs
  rw [if_neg (by simp), zero_add] at hstep
  have hcast : cast_ray cos sin mp walltext S N player_x player_y player_a i pixels
      = march cos sin mp walltext S N player_x player_y player_a (ray_angle player_a i) i
          (2000 + 1) 0 pixels := rfl
  rw [hstep] at hcast
  refine ⟨⟨buf, hcast, hl⟩, fun res hit hrun => ?_⟩
  rw [hcast] at hrun
  exact march_hit_ge cos sin mp walltext S N player_x player_y player_a
    (ray_angle player_a i) i 2000 (1 / 100) buf res hit hrun

/-- C18: for every camera position in an empty cell of the map and every ray of a screen
column, whose angle offset `d` from the facing angle satisfies `|d| <= fov/2` (where `cos` is
positive): the sample at distance 0 is not a hit and the march goes on from the next sample;
hence any hit the march reports has travelled at least one step, `t >= 0.01 > 0` (with `0.01`
the `float` value of the increment), and its corrected distance is `t * cos d > 0`, so the
divisor of `column_height` is not zero and the height is the converted quotient. -/
theorem hit_distance_positive (cos sin : ℚ → ℚ) (mp : List Char) (walltext : List Nat)
    (S N : Nat) (player_x player_y player_a : ℚ) (i : Nat) (pixels : List Nat)
    (hi : i < 512) (hpix : pixels.length = win_w * win_h * 3)
    (hin : 0 ≤ player_x ∧ player_x < 16 ∧ 0 ≤ player_y ∧ player_y < 16)
    (hcell : mp[⌊player_x⌋.toNat + ⌊player_y⌋.toNat * 16]? = some ' ')
    (hcos : ∀ d : ℚ, |d| ≤ fov / 2 → 0 < cos d) :
    |ray_angle player_a i - player_a| ≤ fov / 2 ∧
    (∃ buf, cast_ray cos sin mp walltext S N player_x player_y player_a i pixels
        = march cos sin mp walltext S N player_x player_y player_a (ray_angle player_a i) i
            2000 (1 / 100) buf ∧ buf.length = pixels.length) ∧
    ∀ res hit, cast_ray cos sin mp walltext S N player_x player_y player_a i pixels
        = some (res, some hit) →
      float_step ≤ hit.t ∧ 0 < float_step ∧ 0 < hit.t ∧
      0 < hit.t * cos (ray_angle player_a i - player_a) ∧
      hit.t * cos (ray_angle player_a i - player_a) ≠ 0 ∧
      column_height hit.t (cos (ray_angle player_a i - player_a))
        = float_to_size ((win_h : ℚ) / (hit.t * cos (ray_angle player_a i - player_a))) := by
  have hoff := ray_angle_offset player_a i hi
  obtain ⟨hgo, hge⟩ := march_first_step_empty cos sin mp walltext S N player_x player_y
    player_a i pixels hpix hin hcell
  refine ⟨hoff, hgo, fun res hit hrun => ?_⟩
  have ht := hge res hit hrun
  have hstep : float_step < 1 / 100 := by norm_num [float_step]
  have htpos : 0 < hit.t := by linarith
  have hprod : 0 < hit.t * cos (ray_angle player_a i - player_a) :=
    mul_pos htpos (hcos _ hoff)
  refine ⟨by linarith, by norm_num [float_step], htpos, hprod, hprod.ne', ?_⟩
  unfold column_height
  rw [if_neg hprod.ne']

theorem hit_distance_positive_witness :
    (|ray_angle (1523 / 1000) 256 - 1523 / 1000| ≤ fov / 2 ∧
      (∃ buf, cast_ray (fun x => if x = 0 then 1 else 478 / 10000) (fun _ => 9989 / 10000)
          map [10, 11, 12, 13, 14, 15] 1 6 (3456 / 1000) (2345 / 1000) (1523 / 1000) 256
          (List.replicate (win_w * win_h * 3) 255)
          = march (fun x => if x = 0 then 1 else 478 / 10000) (fun _ => 9989 / 10000)
            map [10, 11, 12, 13, 14, 15] 1 6 (3456 / 1000) (2345 / 1000) (1523 / 1000)
            (ray_angle (1523 / 1000) 256) 256 2000 (1 / 100) buf ∧
        buf.length = (List.replicate (win_w * win_h * 3) 255).length) ∧
      ∀ res hit, cast_ray (fun x => if x = 0 then 1 else 478 / 10000)
          (fun _ => 9989 / 10000) map [10, 11, 12, 13, 14, 15] 1 6 (3456 / 1000)
          (2345 / 1000) (1523 / 1000) 256 (List.replicate (win_w * win_h * 3) 255)
          = some (res, some hit) →
        float_step ≤ hit.t ∧ 0 < float_step ∧ 0 < hit.t ∧
        0 < hit.t * (fun x => if x = 0 then (1 : ℚ) else 478 / 10000)
          (ray_angle (1523 / 1000) 256 - 1523 / 1000) ∧
        hit.t * (fun x => if x = 0 then (1 : ℚ) else 478 / 10000)
          (ray_angle (1523 / 1000) 256 - 1523 / 1000) ≠ 0 ∧
        column_height hit.t ((fun x => if x = 0 then (1 : ℚ) else 478 / 10000)
            (ray_angle (1523 / 1000) 256 - 1523 / 1000))
          = float_to_size ((win_h : ℚ) / (hit.t *
            (fun x => if x = 0 then (1 : ℚ) else 478 / 10000)
              (ray_angle (1523 / 1000) 256 - 1523 / 1000)))) ∧
    ∃ res hit, cast_ray (fun x => if x = 0 then 1 else 478 / 10000) (fun _ => 9989 / 10000)
        map [10, 11, 12, 13, 14, 15] 1 6 (3456 / 1000) (2345 / 1000) (1523 / 1000)
        256 (List.replicate (win_w * win_h * 3) 255) = some (res, some hit) := by
  have hfx : ⌊(3456 / 1000 : ℚ)⌋ = 3 := by rw [Int.floor_eq_iff]; norm_num
  have hfy : ⌊(2345 / 1000 : ℚ)⌋ = 2 := by rw [Int.floor_eq_iff]; norm_num
  refine ⟨hit_distance_positive
    (fun x => if x = 0 then 1 else 478 / 10000) (fun _ => 9989 / 10000) map
    [10, 11, 12, 13, 14, 15] 1 6 (3456 / 1000) (2345 / 1000) (1523 / 1000) 256
    (List.replicate (win_w * win_h * 3) 255) (by decide) (List.length_replicate _ _)
    (by norm_num) (by rw [hfx, hfy]; exact map_column_three.1 2 (by decide) (by decide))
    (fun d _ => by dsimp only; split_ifs <;> norm_num), ?_⟩
  obtain ⟨res, ch, hrun, -, -, -⟩ := centre_ray_hit
    (fun x => if x = 0 then 1 else 478 / 10000) (fun _ => 9989 / 10000)
    [10, 11, 12, 13, 14, 15] 1 6 (List.replicate (win_w * win_h * 3) 255)
    (by norm_num) (by norm_num) (by norm_num) (by decide) (by decide) (by decide)
    (by decide) (by decide) (List.length_replicate _ _)
  exact ⟨res, _, hrun⟩

/-- The march whose samples `0 .. K-1` lie in empty cells and whose sample `K` lies in a wall
cell with character `c` stops there: it reports the hit at distance `K / 100` with the texture
id of `c`, after drawing the column of that hit; no further sample is taken. -/
theorem march_hit_at (cos sin : ℚ → ℚ) (mp : List Char) (walltext : List Nat)
    (S N : Nat) (player_x player_y player_a angle : ℚ) (i fuel K : Nat) (c : Char) (ch : Nat)
    (pixels : List Nat) (hpix : pixels.length = 1024 * 512 * 3)
    (hlen : walltext.length = N * S * S) (hbig : walltext.length < 2 ^ 64)
    (hS : 1 ≤ S) (hS31 : S < 2 ^ 31) (htex : texid_of c < N) (hi : i < 512)
    (hK : K < 2000)
    (hprev : ∀ k : Nat, k < K →
      sample_cell cos sin mp player_x player_y angle ((k : ℚ) / 100) ' ')
    (hwall : sample_cell cos sin mp player_x player_y angle ((K : ℚ) / 100) c)
    (hw : c ≠ ' ')
    (hch : column_height ((K : ℚ) / 100) (cos (angle - player_a)) = some ch) :
    ∃ res, march cos sin mp walltext S N player_x player_y player_a angle i (fuel + 1 + K) 0
        pixels = some (res, some ⟨(K : ℚ) / 100, player_x + (K : ℚ) / 100 * cos angle,
          player_y + (K : ℚ) / 100 * sin angle, texid_of c⟩) ∧
      res.length = pixels.length := by
  obtain ⟨px1, hrun1, hl1, -⟩ := march_prefix cos sin mp walltext S N player_x player_y
    player_a angle i pixels hpix K (fuel + 1) (by omega) hprev
  have ht : (K : ℚ) / 100 < 20 := by
    have : (K : ℚ) < 2000 := by exact_mod_cast hK
    linarith
  obtain ⟨px2, hrun2, hl2, -⟩ := march_step_cell cos sin mp walltext S N player_x player_y
    player_a angle i fuel ((K : ℚ) / 100) c px1 (hl1.trans hpix) ht hwall
  rw [if_pos hw] at hrun2
  obtain ⟨res, hres, hl3, -⟩ := draw_column_total walltext S N c ((K : ℚ) / 100)
    (cos (angle - player_a)) (player_x + (K : ℚ) / 100 * cos angle)
    (player_y + (K : ℚ) / 100 * sin angle) i ch px2 hlen hbig hS hS31 htex hch hi
    (hl2.trans (hl1.trans hpix))
  refine ⟨res, ?_, hl3.trans (hl2.trans hl1)⟩
  rw [hrun1, hrun2, hres]
  rfl

/-- The column height of a hit at sample `K < 2000` is computed whenever the cosine of the
angle offset is at least `1/2`: at distance 0 it is 0, further away the quotient is at most
`102400`. -/
theorem column_height_at_sample (K : Nat) (cd : ℚ) (hcd : 1 / 2 ≤ cd) :
    ∃ ch, column_height ((K : ℚ) / 100) cd = some ch := by
  rcases Nat.eq_zero_or_pos K with h0 | hpos
  · subst h0
    refine ⟨0, ?_⟩
    rw [Nat.cast_zero, zero_div]
    exact column_height_zero cd (by linarith)
  · have hK1 : (1 : ℚ) ≤ K := by exact_mod_cast hpos
    have ht : (1 : ℚ) / 100 ≤ (K : ℚ) / 100 := by linarith
    have hprod : 0 < (K : ℚ) / 100 * cd := mul_pos (by linarith) (by linarith)
    obtain ⟨ch, hch, -⟩ := column_height_exists ((K : ℚ) / 100) cd (2 ^ 64) hprod (by
      rw [div_lt_iff₀ hprod]
      have : 1 / 200 ≤ (K : ℚ) / 100 * cd := by nlinarith
      push_cast
      nlinarith) le_rfl
    exact ⟨ch, hch⟩

/-- The accesses of a march iteration whose sample lies inside the map are in bounds. -/
theorem lookups_in_bounds_of_in_map (cos sin : ℚ → ℚ) (player_x player_y angle t : ℚ)
    (hin : 0 ≤ player_x + t * cos angle ∧ player_x + t * cos angle < 16 ∧
      0 ≤ player_y + t * sin angle ∧ player_y + t * sin angle < 16) :
    lookups_in_bounds cos sin player_x player_y angle t := by
  obtain ⟨hx0, hx1, hy0, hy1⟩ := hin
  have hrw : ((rect_w : Nat) : ℚ) = 32 := by norm_num [rect_w, win_w, map_w]
  have hrh : ((rect_h : Nat) : ℚ) = 32 := by norm_num [rect_h, win_h, map_h]
  unfold lookups_in_bounds
  rw [hrw, hrh]
  generalize player_x + t * cos angle = x at hx0 hx1
  generalize player_y + t * sin angle = y at hy0 hy1
  obtain ⟨hcx1, hcx2⟩ := float_to_int_floor x 16 hx0 (by push_cast; linarith) (by norm_num)
  obtain ⟨hcy1, hcy2⟩ := float_to_int_floor y 16 hy0 (by push_cast; linarith) (by norm_num)
  obtain ⟨hpx1, hpx2⟩ := float_to_int_floor (x * 32) 512 (by positivity)
    (by push_cast; linarith) (by norm_num)
  obtain ⟨hpy1, hpy2⟩ := float_to_int_floor (y * 32) 512 (by positivity)
    (by push_cast; linarith) (by norm_num)
  refine ⟨_, _, _, _, hcx1, hcy1, ?_, hpx1, hpy1, hpx2, hpy2⟩
  have hmw : map_w = 16 := rfl
  rw [to_size_natCast _ (by omega), to_size_natCast _ (by omega), hmw]
  omega

/-- The samples of a march in the built-in map from an interior cell, with steps below one
grid unit: there is a first index `K <= 2000` such that the samples before `K` lie in empty
cells and, when `K < 2000`, sample `K` lies in a wall cell of the map. -/
theorem first_wall_sample (cos sin : ℚ → ℚ) (player_x player_y angle : ℚ)
    (hcam : 1 ≤ player_x ∧ player_x < 15 ∧ 1 ≤ player_y ∧ player_y < 15)
    (hdx : |cos angle| * (1 / 100) < 1) (hdy : |sin angle| * (1 / 100) < 1) :
    ∃ K : Nat, K ≤ 2000 ∧
      (∀ k : Nat, k < K →
        sample_cell cos sin map player_x player_y angle ((k : ℚ) / 100) ' ') ∧
      (K < 2000 → ∃ c, c ≠ ' ' ∧
        sample_cell cos sin map player_x player_y angle ((K : ℚ) / 100) c) ∧
      (99 / 100 ≤ cos angle ^ 2 + sin angle ^ 2 → K < 2000) := by
  by_cases hex : ∃ K : Nat, K < 2000 ∧ ∃ c, c ≠ ' ' ∧
      sample_cell cos sin map player_x player_y angle ((K : ℚ) / 100) c ∧
      ∀ k : Nat, k < K →
        sample_cell cos sin map player_x player_y angle ((k : ℚ) / 100) ' '
  · obtain ⟨K, hK, c, hw, hc, hprev⟩ := hex
    exact ⟨K, hK.le, hprev, fun _ => ⟨c, hw, hc⟩, fun _ => hK⟩
  · have hQ : ∀ K : Nat, K ≤ 2000 → ∀ k : Nat, k < K → ∀ c,
        sample_cell cos sin map player_x player_y angle ((k : ℚ) / 100) c → c = ' ' := by
      intro K
      induction K with
      | zero => intro _ k hk; exact absurd hk (Nat.not_lt_zero k)
      | succ K ih =>
        intro hK k hk c hc
        have hQK := ih (by omega)
        rcases Nat.lt_succ_iff_lt_or_eq.mp hk with hlt | rfl
        · exact hQK k hlt c hc
        · by_contra hw
          exact hex ⟨k, by omega, c, hw, hc,
            (march_samples_in_map cos sin player_x player_y angle hcam hdx hdy k hQK).2⟩
    refine ⟨2000, le_rfl,
      (march_samples_in_map cos sin player_x player_y angle hcam hdx hdy 2000
        (hQ 2000 le_rfl)).2, fun h => absurd h (lt_irrefl _), fun hunit => ?_⟩
    exact absurd (march_reaches_wall cos sin player_x player_y angle hcam hdx hdy hunit) hex

/-- C16: every border cell of the built-in map is a wall; consequently, for every camera
position in an interior cell and every ray whose successive samples differ by less than 1 grid
unit in each coordinate, the ray returns without a fault after the samples `0 .. K`: the
samples before `K` lie in empty cells inside the map, and either `K < 2000`, sample `K` lies
in a wall cell inside the map and the march stops there with the hit of that cell, or
`K = 2000` and the march ends without a hit.  At every sample taken the map lookup index
`int(cx) + int(cy) * 16` is below 256 and the cone pixel lies in the left 512x512 half of the
frame.  A direction of length close to 1 does meet a wall within the 2000 samples.  (The hit
branch needs the atlas of `main` and a cosine of at least `1/2` within half the field of
view.) -/
theorem march_stays_in_map (cos sin : ℚ → ℚ) (walltext : List Nat) (S N : Nat)
    (player_x player_y player_a : ℚ) (i : Nat) (pixels : List Nat)
    (hcam : 1 ≤ player_x ∧ player_x < 15 ∧ 1 ≤ player_y ∧ player_y < 15)
    (hdx : |cos (ray_angle player_a i)| * (1 / 100) < 1)
    (hdy : |sin (ray_angle player_a i)| * (1 / 100) < 1)
    (hi : i < 512) (hpix : pixels.length = win_w * win_h * 3)
    (hlen : walltext.length = N * S * S) (hbig : walltext.length < 2 ^ 64)
    (hS : 1 ≤ S) (hS31 : S < 2 ^ 31) (hN : 6 ≤ N)
    (hcos : ∀ d : ℚ, |d| ≤ fov / 2 → 1 / 2 ≤ cos d) :
    (∀ a b, a < 16 → b < 16 → (a = 0 ∨ a = 15 ∨ b = 0 ∨ b = 15) →
      ∃ c, map[a + b * 16]? = some c ∧ c ≠ ' ') ∧
    ∃ (K : Nat) (res : List Nat) (hit : Option Hit),
      cast_ray cos sin map walltext S N player_x player_y player_a i pixels
        = some (res, hit) ∧
      res.length = pixels.length ∧ K ≤ 2000 ∧
      (∀ k : Nat, k < K →
        sample_cell cos sin map player_x player_y (ray_angle player_a i) ((k : ℚ) / 100) ' ') ∧
      (K < 2000 → ∃ c, c ≠ ' ' ∧
        sample_cell cos sin map player_x player_y (ray_angle player_a i) ((K : ℚ) / 100) c ∧
        hit = some ⟨(K : ℚ) / 100,
          player_x + (K : ℚ) / 100 * cos (ray_angle player_a i),
          player_y + (K : ℚ) / 100 * sin (ray_angle player_a i), texid_of c⟩) ∧
      (K = 2000 → hit = none) ∧
      (∀ k : Nat, k ≤ K → k < 2000 →
        lookups_in_bounds cos sin player_x player_y (ray_angle player_a i) ((k : ℚ) / 100)) ∧
      (99 / 100 ≤ cos (ray_angle player_a i) ^ 2 + sin (ray_angle player_a i) ^ 2 →
        K < 2000) := by
  replace hpix : pixels.length = 1024 * 512 * 3 := hpix
  refine ⟨?_, ?_⟩
  · intro a b ha hb hbd
    obtain ⟨h1, h2⟩ := map_border_cells a ha b hb hbd
    obtain ⟨c, hc⟩ := Option.ne_none_iff_exists'.mp h2
    exact ⟨c, hc, fun hsp => h1 (by rw [hc, hsp])⟩
  · obtain ⟨K, hK, hprev, hwall, hunit⟩ := first_wall_sample cos sin player_x player_y
      (ray_angle player_a i) hcam hdx hdy
    have hbounds : ∀ k : Nat, k ≤ K → k < 2000 →
        lookups_in_bounds cos sin player_x player_y (ray_angle player_a i)
          ((k : ℚ) / 100) := by
      intro k hk hk2
      apply lookups_in_bounds_of_in_map
      rcases Nat.lt_or_eq_of_le hk with hlt | rfl
      · obtain ⟨h1, h2, h3, h4, -⟩ := hprev k hlt
        exact ⟨h1, h2, h3, h4⟩
      · obtain ⟨c, -, h1, h2, h3, h4, -⟩ := hwall hk2
        exact ⟨h1, h2, h3, h4⟩
    rcases Nat.lt_or_eq_of_le hK with hlt | heq
    · obtain ⟨c, hw, hc⟩ := hwall hlt
      have htex : texid_of c < N := by
        obtain ⟨hx0, hx1, hy0, hy1, hcell⟩ := hc
        have hidx := (in_map_cell cos sin player_x player_y (ray_angle player_a i)
          ((K : ℚ) / 100) ⟨hx0, hx1, hy0, hy1⟩).1
        have := map_texid_lt _ c hidx hcell hw
        omega
      obtain ⟨ch, hch⟩ := column_height_at_sample K
        (cos (ray_angle player_a i - player_a)) (hcos _ (ray_angle_offset player_a i hi))
      obtain ⟨res, hres, hl⟩ := march_hit_at cos sin map walltext S N player_x player_y
        player_a (ray_angle player_a i) i (2000 - K) K c ch pixels hpix hlen hbig hS hS31
        htex hi hlt hprev hc hw hch
      have hfuel : 2000 - K + 1 + K = 2001 := by omega
      rw [hfuel] at hres
      exact ⟨K, res, _, hres, hl, hK, hprev, fun _ => ⟨c, hw, hc, rfl⟩,
        fun h => absurd h (Nat.ne_of_lt hlt), hbounds, hunit⟩
    · subst heq
      obtain ⟨res, hres, hl, -⟩ := march_no_hit cos sin map walltext S N player_x player_y
        player_a (ray_angle player_a i) i hprev 2000 0 pixels (by omega) hpix
      have hres' : cast_ray cos sin map walltext S N player_x player_y player_a i pixels
          = some (res, none) := by
        unfold cast_ray
        simpa using hres
      exact ⟨2000, res, none, hres', hl, le_rfl, hprev,
        fun h => absurd h (lt_irrefl _), fun _ => rfl, hbounds, hunit⟩

theorem march_stays_in_map_witness :
    (∀ a b, a < 16 → b < 16 → (a = 0 ∨ a = 15 ∨ b = 0 ∨ b = 15) →
      ∃ c, map[a + b * 16]? = some c ∧ c ≠ ' ') ∧
    ∃ (K : Nat) (res : List Nat) (hit : Option Hit),
      cast_ray (fun _ => 3 / 5) (fun _ => 4 / 5) map [10, 11, 12, 13, 14, 15] 1 6
        (3456 / 1000) (2345 / 1000) (1523 / 1000) 256
        (List.replicate (win_w * win_h * 3) 255) = some (res, hit) ∧
      res.length = (List.replicate (win_w * win_h * 3) 255).length ∧ K ≤ 2000 ∧
      (∀ k : Nat, k < K →
        sample_cell (fun _ => 3 / 5) (fun _ => 4 / 5) map (3456 / 1000) (2345 / 1000)
          (ray_angle (1523 / 1000) 256) ((k : ℚ) / 100) ' ') ∧
      (K < 2000 → ∃ c, c ≠ ' ' ∧
        sample_cell (fun _ => 3 / 5) (fun _ => 4 / 5) map (3456 / 1000) (2345 / 1000)
          (ray_angle (1523 / 1000) 256) ((K : ℚ) / 100) c ∧
        hit = some ⟨(K : ℚ) / 100,
          3456 / 1000 + (K : ℚ) / 100 * (fun _ => (3 / 5 : ℚ)) (ray_angle (1523 / 1000) 256),
          2345 / 1000 + (K : ℚ) / 100 * (fun _ => (4 / 5 : ℚ)) (ray_angle (1523 / 1000) 256),
          texid_of c⟩) ∧
      (K = 2000 → hit = none) ∧
      (∀ k : Nat, k ≤ K → k < 2000 →
        lookups_in_bounds (fun _ => 3 / 5) (fun _ => 4 / 5) (3456 / 1000) (2345 / 1000)
          (ray_angle (1523 / 1000) 256) ((k : ℚ) / 100)) ∧
      (99 / 100 ≤ (fun _ => (3 / 5 : ℚ)) (ray_angle (1523 / 1000) 256) ^ 2
          + (fun _ => (4 / 5 : ℚ)) (ray_angle (1523 / 1000) 256) ^ 2 →
        K < 2000) :=
  march_stays_in_map (fun _ => 3 / 5) (fun _ => 4 / 5) [10, 11, 12, 13, 14, 15] 1 6
    (3456 / 1000) (2345 / 1000) (1523 / 1000) 256
    (List.replicate (win_w * win_h * 3) 255)
    (by norm_num) (by norm_num [abs_of_pos]) (by norm_num [abs_of_pos]) (by decide)
    (List.length_replicate _ _) (by decide) (by decide) (by decide) (by decide) (by decide)
    (fun _ _ => by norm_num)

/-- The true cosine satisfies what the theorems on the rays of `main` assume of the parameter
`cos`: within half the field of view it is at least `1/2` (it is above `0.86` there), in
particular positive. -/
theorem real_cos_in_fov (d : ℝ) (hd : |d| ≤ ((fov : ℚ) : ℝ) / 2) :
    1 / 2 ≤ Real.cos d ∧ 0 < Real.cos d := by
  have hfov : ((fov : ℚ) : ℝ) = 8784530 / 8388608 := by
    unfold fov
    push_cast
    ring
  rw [hfov] at hd
  have h1 := Real.one_sub_sq_div_two_le_cos (x := d)
  have hsq : d ^ 2 ≤ (8784530 / 8388608 / 2) ^ 2 := by
    rw [← sq_abs d]
    exact pow_le_pow_left₀ (abs_nonneg d) hd 2
  have h2 : 1 / 2 ≤ Real.cos d := by
    norm_num at hsq
    linarith
  exact ⟨h2, by linarith⟩

end TinyRayCaster
